import Mathlib

/-!
Verification development for the core of the Nickel configuration-language
toolchain. The Rust sources are shallowly embedded: machine integers become
Nat/Int, rationals become Lean rationals, hash maps become association lists
with insert-or-overwrite semantics, fallible or panicking code returns Option,
and stateful code passes its state explicitly.
-/

set_option maxRecDepth 2000

namespace NickelSpec

/-! ## Merge priorities (core/src/term/mod.rs, MergePriority) -/

/-- The merge priority of a record field, from core/src/term/mod.rs.
Numerals are arbitrary-precision rationals. -/
inductive MergePriority where
  | bottom
  | neutral
  | numeral (n : ℚ)
  | top
deriving DecidableEq, Repr

/-- Embedding of the hand-written PartialEq instance for MergePriority. -/
def eqMP : MergePriority → MergePriority → Bool
  | .bottom, .bottom => true
  | .neutral, .neutral => true
  | .top, .top => true
  | .numeral p1, .numeral p2 => p1 == p2
  | .neutral, .numeral p => p == 0
  | .numeral p, .neutral => p == 0
  | _, _ => false

/-- Embedding of the Ord instance for MergePriority. The Rust source uses
ordered overlapping match arms (equalities first, then Bottom/Top wildcard
arms, then the Neutral/Numeral mixed arms); the match is expanded here into
the sixteen constructor pairs it resolves to. -/
def cmpMP : MergePriority → MergePriority → Ordering
  | .bottom, .bottom => .eq
  | .top, .top => .eq
  | .neutral, .neutral => .eq
  | .numeral p1, .numeral p2 => compare p1 p2
  | .bottom, .neutral => .lt
  | .bottom, .numeral _ => .lt
  | .bottom, .top => .lt
  | .neutral, .top => .lt
  | .numeral _, .top => .lt
  | .top, .bottom => .gt
  | .top, .neutral => .gt
  | .top, .numeral _ => .gt
  | .neutral, .bottom => .gt
  | .numeral _, .bottom => .gt
  | .neutral, .numeral n => compare (0 : ℚ) n
  | .numeral n, .neutral => compare n (0 : ℚ)

theorem compare_swap_rat (a b : ℚ) : compare a b = (compare b a).swap := by
  rcases lt_trichotomy a b with h | h | h
  · rw [compare_lt_iff_lt.mpr h, compare_gt_iff_gt.mpr h]
    rfl
  · rw [compare_eq_iff_eq.mpr h, compare_eq_iff_eq.mpr h.symm]
    rfl
  · rw [compare_gt_iff_gt.mpr h, compare_lt_iff_lt.mpr h]
    rfl

/-- C7: the Ord/PartialEq instances of MergePriority form a total order with
Bottom strictly below every Numeral, Numerals in numeric order, every Numeral
strictly below Top, and Neutral behaving as Numeral 0 for both comparison and
equality while remaining a distinct variant; cmp is transitive, antisymmetric
(via swap) and consistent with eq. -/
theorem mergePriority_total_order :
    (∀ x y, cmpMP x y = Ordering.eq ↔ eqMP x y = true) ∧
    (∀ x y z, cmpMP x y = Ordering.lt → cmpMP y z = Ordering.lt →
      cmpMP x z = Ordering.lt) ∧
    (∀ x y, cmpMP x y = (cmpMP y x).swap) ∧
    (∀ n, cmpMP MergePriority.bottom (MergePriority.numeral n) = Ordering.lt) ∧
    (∀ a b, cmpMP (MergePriority.numeral a) (MergePriority.numeral b) = compare a b) ∧
    (∀ n, cmpMP (MergePriority.numeral n) MergePriority.top = Ordering.lt) ∧
    (eqMP MergePriority.neutral (MergePriority.numeral 0) = true ∧
      cmpMP MergePriority.neutral (MergePriority.numeral 0) = Ordering.eq ∧
      MergePriority.neutral ≠ MergePriority.numeral 0) := by
  refine ⟨?_, ?_, ?_, ?_, ?_, ?_, ?_, ?_, ?_⟩
  · intro x y
    cases x <;> cases y
    case numeral.numeral a b =>
      show compare a b = Ordering.eq ↔ (a == b) = true
      rw [compare_eq_iff_eq, beq_iff_eq]
    case neutral.numeral n =>
      show compare (0 : ℚ) n = Ordering.eq ↔ (n == 0) = true
      rw [compare_eq_iff_eq, beq_iff_eq]
      exact eq_comm
    case numeral.neutral n =>
      show compare n (0 : ℚ) = Ordering.eq ↔ (n == 0) = true
      rw [compare_eq_iff_eq, beq_iff_eq]
    all_goals simp [cmpMP, eqMP]
  · intro x y z
    cases x <;> cases y <;> cases z <;>
      simp only [cmpMP, compare_lt_iff_lt] <;>
      intro h1 h2 <;>
      first
        | rfl
        | exact lt_trans h1 h2
        | linarith
        | simp_all
  · intro x y
    cases x <;> cases y
    case numeral.numeral a b => exact compare_swap_rat a b
    case neutral.numeral n => exact compare_swap_rat 0 n
    case numeral.neutral n => exact compare_swap_rat n 0
    all_goals rfl
  · intro n
    rfl
  · intro a b
    rfl
  · intro n
    rfl
  · simp [eqMP]
  · simp [cmpMP, compare_eq_iff_eq]
  · simp

/-- C7 witness: the transitivity component applied at concrete priorities
Bottom, Numeral 1 and Top. -/
theorem mergePriority_total_order_witness :
    cmpMP MergePriority.bottom MergePriority.top = Ordering.lt :=
  mergePriority_total_order.2.1 MergePriority.bottom
    (MergePriority.numeral 1) MergePriority.top (by decide)
    (by simp [cmpMP, compare_lt_iff_lt])

/-! ## Git object ids (core/src/package.rs, ObjectId) -/

/-- Length in bytes of a git object id (ID_LEN in core/src/package.rs). -/
def ID_LEN : Nat := 20

/-- A git object id: ID_LEN raw bytes. Bytes are modelled as Nat, with
well-formedness (length 20, each byte below 256) carried as hypotheses. -/
abbrev ObjectId := List Nat

/-- Modelled from the spec: the base16 crate used by core/src/package.rs is an
external dependency; a byte encodes to two lowercase hex digits, high nibble
first. -/
def hexDigit (n : Nat) : Char :=
  if n < 10 then Char.ofNat (48 + n) else Char.ofNat (87 + n)

/-- Modelled from the spec: base16::encode_lower over a byte slice. -/
def encode_lower (bytes : List Nat) : List Char :=
  bytes.foldr (fun b acc => hexDigit (b / 16) :: hexDigit (b % 16) :: acc) []

/-- Modelled from the spec: the value of a single hex digit accepted by the
base16 decoder (both cases accepted, only lowercase is ever produced). -/
def hexVal (c : Char) : Option Nat :=
  if 48 ≤ c.toNat ∧ c.toNat ≤ 57 then some (c.toNat - 48)
  else if 97 ≤ c.toNat ∧ c.toNat ≤ 102 then some (c.toNat - 87)
  else if 65 ≤ c.toNat ∧ c.toNat ≤ 70 then some (c.toNat - 55)
  else none

/-- Modelled from the spec: base16::decode_slice, two hex digits per byte;
fails on an odd-length input or a character outside the hex alphabet. -/
def decode_pairs : List Char → Option (List Nat)
  | [] => some []
  | [_] => none
  | c1 :: c2 :: rest => do
      let hi ← hexVal c1
      let lo ← hexVal c2
      let tl ← decode_pairs rest
      pure ((16 * hi + lo) :: tl)

/-- Parse error for object ids (core/src/package.rs, ParseObjectError); the
Base16 payload is opaque here. -/
inductive ParseObjectError where
  | length (got : Nat)
  | base16
deriving DecidableEq, Repr

/-- Embedding of the Display instance for ObjectId: base16::encode_lower. -/
def displayObjectId (oid : ObjectId) : List Char :=
  encode_lower oid

/-- Embedding of FromStr for ObjectId: the string must be exactly twice
ID_LEN characters long, then base16-decoded. -/
def objectId_from_str (s : List Char) : Except ParseObjectError ObjectId :=
  if s.length = ID_LEN * 2 then
    match decode_pairs s with
    | some bytes => .ok bytes
    | none => .error .base16
  else
    .error (.length s.length)

/-- A lowercase hexadecimal character. -/
def isLowerHex (c : Char) : Bool :=
  (48 ≤ c.toNat && c.toNat ≤ 57) || (97 ≤ c.toNat && c.toNat ≤ 102)

theorem hexDigit_isLowerHex {n : Nat} (h : n < 16) :
    isLowerHex (hexDigit n) = true := by
  interval_cases n <;> decide

theorem hexVal_hexDigit {n : Nat} (h : n < 16) :
    hexVal (hexDigit n) = some n := by
  interval_cases n <;> decide

theorem encode_lower_cons (b : Nat) (rest : List Nat) :
    encode_lower (b :: rest) =
      hexDigit (b / 16) :: hexDigit (b % 16) :: encode_lower rest := rfl

theorem decode_encode (bytes : List Nat) (h : ∀ b ∈ bytes, b < 256) :
    decode_pairs (encode_lower bytes) = some bytes := by
  induction bytes with
  | nil => rfl
  | cons b rest ih =>
      have hb : b < 256 := h b (List.mem_cons_self _ _)
      have hhi : b / 16 < 16 := Nat.div_lt_of_lt_mul (by omega)
      have hlo : b % 16 < 16 := Nat.mod_lt _ (by omega)
      have hrest : decode_pairs (encode_lower rest) = some rest :=
        ih (fun x hx => h x (List.mem_cons_of_mem _ hx))
      rw [encode_lower_cons]
      simp only [decode_pairs, hexVal_hexDigit hhi, hexVal_hexDigit hlo, hrest]
      have hdm : 16 * (b / 16) + b % 16 = b := by omega
      simp [hdm]

theorem encode_length (bytes : List Nat) :
    (encode_lower bytes).length = 2 * bytes.length := by
  induction bytes with
  | nil => rfl
  | cons b rest ih =>
      rw [encode_lower_cons]
      simp only [List.length_cons, ih, List.length_cons]
      omega

/-- C8: displaying an ObjectId yields exactly 40 lowercase hexadecimal
characters, and parsing the displayed string with from_str returns the
original id. -/
theorem objectId_display_parse_roundtrip (oid : ObjectId)
    (hlen : oid.length = ID_LEN) (hbytes : ∀ b ∈ oid, b < 256) :
    (displayObjectId oid).length = 40 ∧
    (∀ c ∈ displayObjectId oid, isLowerHex c = true) ∧
    objectId_from_str (displayObjectId oid) = .ok oid := by
  refine ⟨?_, ?_, ?_⟩
  · rw [displayObjectId, encode_length, hlen]
    rfl
  · intro c hc
    rw [displayObjectId] at hc
    clear hlen
    induction oid with
    | nil => exact absurd hc (List.not_mem_nil c)
    | cons b rest ih =>
        have hb : b < 256 := hbytes b (List.mem_cons_self _ _)
        rw [encode_lower_cons] at hc
        rcases List.mem_cons.mp hc with h | h
        · rw [h]
          exact hexDigit_isLowerHex (Nat.div_lt_of_lt_mul (by omega))
        · rcases List.mem_cons.mp h with h2 | h2
          · rw [h2]
            exact hexDigit_isLowerHex (Nat.mod_lt _ (by omega))
          · exact ih (fun x hx => hbytes x (List.mem_cons_of_mem _ hx)) h2
  · rw [objectId_from_str, displayObjectId, encode_length, hlen]
    simp only [show 2 * ID_LEN = ID_LEN * 2 from by omega, if_pos rfl]
    rw [decode_encode oid hbytes]
    simp

/-- C8 witness: the roundtrip at a concrete 20-byte object id. -/
theorem objectId_display_parse_roundtrip_witness :
    (displayObjectId (List.replicate 20 171)).length = 40 ∧
    (∀ c ∈ displayObjectId (List.replicate 20 171), isLowerHex c = true) ∧
    objectId_from_str (displayObjectId (List.replicate 20 171)) =
      .ok (List.replicate 20 171) :=
  objectId_display_parse_roundtrip (List.replicate 20 171) (by decide)
    (by decide)

/-! ## Package names (core/src/package.rs, Name) -/

/-- A package name: organization and package, from core/src/package.rs. -/
structure Name where
  org : List Char
  package : List Char
deriving DecidableEq, Repr

/-- Embedding of str::split_once: split at the first occurrence of the
separator, returning the parts before and after it. -/
def splitOnce (sep : Char) : List Char → Option (List Char × List Char)
  | [] => none
  | c :: rest =>
      if c = sep then some ([], rest)
      else (splitOnce sep rest).map (fun p => (c :: p.1, p.2))

/-- Embedding of FromStr for Name: split at the first slash and fail if the
remainder contains another slash. The error type is String (always empty in
the source, marked FIXME there). -/
def name_from_str (s : List Char) : Except (List Char) Name :=
  match splitOnce '/' s with
  | none => .error []
  | some (org, pkg) =>
      if pkg.contains '/' then .error []
      else .ok ⟨org, pkg⟩

/-- Modelled from the spec: an identifier of the surface language, a nonempty
string starting with an ASCII letter or underscore whose remaining characters
are ASCII letters, digits, underscores or dashes. -/
def isIdentStartChar (c : Char) : Bool :=
  (65 ≤ c.toNat && c.toNat ≤ 90) || (97 ≤ c.toNat && c.toNat ≤ 122) || c.toNat = 95

/-- Modelled from the spec: a non-initial identifier character. -/
def isIdentChar (c : Char) : Bool :=
  isIdentStartChar c || (48 ≤ c.toNat && c.toNat ≤ 57) || c.toNat = 45

/-- Modelled from the spec: validity of a surface-language identifier. -/
def isIdent : List Char → Bool
  | [] => false
  | c :: rest => isIdentStartChar c && rest.all isIdentChar

theorem splitOnce_none (sep : Char) (s : List Char) :
    splitOnce sep s = none ↔ sep ∉ s := by
  induction s with
  | nil => simp [splitOnce]
  | cons c rest ih =>
      by_cases h : c = sep
      · subst h
        simp [splitOnce]
      · simp only [splitOnce, if_neg h, List.mem_cons]
        rw [Option.map_eq_none', ih]
        constructor
        · intro hn hmem
          rcases hmem with h1 | h1
          · exact h h1.symm
          · exact hn h1
        · intro hn h1
          exact hn (Or.inr h1)

theorem splitOnce_some (sep : Char) (s a b : List Char)
    (h : splitOnce sep s = some (a, b)) : s = a ++ sep :: b ∧ sep ∉ a := by
  induction s generalizing a b with
  | nil => simp [splitOnce] at h
  | cons c rest ih =>
      by_cases hc : c = sep
      · subst hc
        simp only [splitOnce, if_pos rfl, if_true, Option.some_inj,
          Prod.mk.injEq] at h
        obtain ⟨h1, h2⟩ := h
        subst h1
        subst h2
        simp
      · simp only [splitOnce, if_neg hc] at h
        cases hs : splitOnce sep rest with
        | none =>
            rw [hs] at h
            simp at h
        | some p =>
            obtain ⟨a0, b0⟩ := p
            rw [hs] at h
            simp only [Option.map_some', Option.some_inj] at h
            obtain ⟨h1, h2⟩ := Prod.mk.injEq _ _ _ _ ▸ h
            obtain ⟨hs1, hs2⟩ := ih a0 b0 hs
            subst h2
            rw [← h1]
            constructor
            · rw [hs1]
              simp
            · intro hmem
              rcases List.mem_cons.mp hmem with h3 | h3
              · exact hc h3.symm
              · exact hs2 h3

/-- C9 counterexample: the single-character string "/" is accepted by
Name::from_str although neither half is a valid identifier (both are empty),
so acceptance does not imply identifier-valid halves. -/
theorem name_from_str_accepts_non_identifiers :
    name_from_str ['/'] = .ok ⟨[], []⟩ ∧ isIdent [] = false := by
  constructor
  · rfl
  · rfl

/-- C9 amended: Name::from_str succeeds exactly on strings containing exactly
one slash; the two halves are the parts before and after it, and they are not
validated as identifiers. In particular any string with more than one slash is
rejected, and any string without a slash is rejected. -/
theorem name_from_str_exactly_one_slash (s : List Char) :
    (name_from_str s).isOk = true ↔ s.count '/' = 1 := by
  cases hs : splitOnce '/' s with
  | none =>
      have hmem : '/' ∉ s := (splitOnce_none '/' s).mp hs
      have hc : s.count '/' = 0 := List.count_eq_zero.mpr hmem
      simp [name_from_str, hs, Except.isOk, Except.toBool, hc]
  | some p =>
      obtain ⟨a, b⟩ := p
      obtain ⟨hsplit, hna⟩ := splitOnce_some '/' s a b hs
      subst hsplit
      have hca : List.count '/' a = 0 := List.count_eq_zero.mpr hna
      by_cases hb : b.contains '/'
      · have hbmem : '/' ∈ b := by simpa [List.contains] using hb
        have hcb : 1 ≤ List.count '/' b := List.one_le_count_iff.mpr hbmem
        simp only [name_from_str, hs, if_pos hb, Except.isOk, Except.toBool,
          List.count_append, List.count_cons, hca]
        simp only [show (('/' : Char) == '/') = true from rfl, if_pos]
        constructor
        · intro h
          simp at h
        · intro h
          omega
      · have hbmem : '/' ∉ b := by
          intro hm
          exact hb (by simpa [List.contains] using hm)
        have hcb : List.count '/' b = 0 := List.count_eq_zero.mpr hbmem
        simp only [name_from_str, hs, if_neg hb, Except.isOk, Except.toBool,
          List.count_append, List.count_cons, hca, hcb]
        simp

/-! ## Filesystem paths and locked package sources -/

/-- Modelled from the spec: a simplified PathBuf, a list of components with an
absoluteness flag; join replaces the whole path when the argument is absolute,
as PathBuf::join does. -/
structure NPath where
  absolute : Bool
  comps : List String
deriving DecidableEq, Repr

/-- Modelled from the spec: PathBuf::join. -/
def NPath.join (p q : NPath) : NPath :=
  if q.absolute then q else ⟨p.absolute, p.comps ++ q.comps⟩

/-- Join a single relative component, as PathBuf::join with a plain file
name. -/
def NPath.joinComp (p : NPath) (c : String) : NPath :=
  ⟨p.absolute, p.comps ++ [c]⟩

/-- A relative empty path: PathBuf::default. -/
def NPath.relEmpty : NPath := ⟨false, []⟩

/-- Modelled from the spec: the per-user cache directory
(ProjectDirs cache_dir for org "org", "nickel-lang", "nickel"); both crates
call the same directories API, so a single constant models it. -/
def cache_dir : NPath := ⟨true, ["home", ".cache", "nickel"]⟩

/-- The display form of an ObjectId as a path component. -/
def treeString (tree : ObjectId) : String :=
  String.mk (displayObjectId tree)

/-- A locked package source, defined identically in core/src/package.rs and
in package/src/lock.rs: a git repo pinned at a tree id with a path inside the
repo, or a filesystem path. -/
inductive LockedPackageSource where
  | git (repo : String) (tree : ObjectId) (path : NPath)
  | path (path : NPath)
deriving DecidableEq, Repr

/-- Embedding of LockedPackageSource::local_path from core/src/package.rs:
for a git source, the cache directory joined with the tree id only. -/
def core_local_path : LockedPackageSource → NPath
  | .git _ tree _ => cache_dir.joinComp (treeString tree)
  | .path p => p

/-- Embedding of LockedPackageSource::local_path from package/src/lock.rs:
for a git source, the cache directory joined with the tree id and then with
the in-repo path. -/
def lock_local_path : LockedPackageSource → NPath
  | .git _ tree p => (cache_dir.joinComp (treeString tree)).join p
  | .path p => p

/-- Embedding of LockedPackageSource::repo_root from package/src/lock.rs. -/
def repo_root : LockedPackageSource → Option NPath
  | .git _ tree _ => some (cache_dir.joinComp (treeString tree))
  | .path _ => none

/-- A concrete all-zero object id used in counterexamples. -/
def oid0 : ObjectId := List.replicate 20 0

/-- C10 counterexample: on a git source with the non-empty in-repo path
"sub", the core crate's local_path and the package crate's local_path
disagree (the former ignores the path field), refuting the claim that they
agree on all sources and in particular on non-empty in-repo paths. -/
theorem local_path_disagree :
    core_local_path (.git "url" oid0 ⟨false, ["sub"]⟩) ≠
      lock_local_path (.git "url" oid0 ⟨false, ["sub"]⟩) := by
  intro h
  have := congrArg (fun p => p.comps.length) h
  simp [core_local_path, lock_local_path, NPath.join, NPath.joinComp,
    cache_dir] at this

/-- C10 amended: the two embeddings of local_path agree on all Path sources
and on Git sources whose in-repo path is empty and relative, and they
disagree on every Git source whose in-repo path is relative and non-empty
(the core crate ignores the path field). -/
theorem local_path_agreement :
    (∀ p, core_local_path (.path p) = lock_local_path (.path p)) ∧
    (∀ repo tree, core_local_path (.git repo tree NPath.relEmpty) =
      lock_local_path (.git repo tree NPath.relEmpty)) ∧
    (∀ repo tree comps, comps ≠ [] →
      core_local_path (.git repo tree ⟨false, comps⟩) ≠
        lock_local_path (.git repo tree ⟨false, comps⟩)) := by
  refine ⟨fun p => rfl, fun repo tree => ?_, fun repo tree comps hne h => ?_⟩
  · simp [core_local_path, lock_local_path, NPath.join, NPath.relEmpty,
      NPath.joinComp]
  · have := congrArg (fun p => p.comps.length) h
    simp [core_local_path, lock_local_path, NPath.join, NPath.joinComp,
      cache_dir] at this
    exact hne this

/-- C10 amended witness: the agreement at a concrete git source with empty
in-repo path and the disagreement at a concrete non-empty one. -/
theorem local_path_agreement_witness :
    core_local_path (.git "url" oid0 NPath.relEmpty) =
      lock_local_path (.git "url" oid0 NPath.relEmpty) ∧
    core_local_path (.git "url" oid0 ⟨false, ["pkg"]⟩) ≠
      lock_local_path (.git "url" oid0 ⟨false, ["pkg"]⟩) :=
  ⟨local_path_agreement.2.1 "url" oid0,
    local_path_agreement.2.2 "url" oid0 ["pkg"] (by decide)⟩

/-! ## Lock files (package/src/lock.rs, package/src/manifest.rs) -/

/-- Association-list model of HashMap lookup. -/
def lookupA {κ ν : Type} [DecidableEq κ] : List (κ × ν) → κ → Option ν
  | [], _ => none
  | (k0, v0) :: rest, k => if k0 = k then some v0 else lookupA rest k

/-- Association-list model of HashMap insert: overwrite the binding if the
key is already present, append it otherwise. -/
def insertA {κ ν : Type} [DecidableEq κ] : List (κ × ν) → κ → ν → List (κ × ν)
  | [], k, v => [(k, v)]
  | (k0, v0) :: rest, k, v =>
      if k0 = k then (k, v) :: rest else (k0, v0) :: insertA rest k v

theorem lookupA_insertA {κ ν : Type} [DecidableEq κ]
    (m : List (κ × ν)) (k k' : κ) (v : ν) :
    lookupA (insertA m k v) k' = if k = k' then some v else lookupA m k' := by
  induction m with
  | nil => simp [insertA, lookupA]
  | cons p rest ih =>
      obtain ⟨k0, v0⟩ := p
      by_cases h0 : k0 = k
      · subst h0
        simp only [insertA, if_pos rfl, lookupA]
        by_cases h1 : k0 = k' <;> simp [h1, lookupA]
      · simp only [insertA, if_neg h0, lookupA]
        by_cases h1 : k0 = k'
        · subst h1
          have h0r : ¬k = k0 := fun h => h0 h.symm
          simp [lookupA, h0r]
        · simp [h1, ih]

/-- The dependencies of a single package (LockFileEntry). -/
structure LockFileEntry where
  name : Name
  dependencies : List (Name × LockedPackageSource)
deriving DecidableEq, Repr

/-- A lock file: top-level dependencies plus the map of all known packages
with their dependencies. -/
structure LockFile where
  dependencies : List (Name × LockedPackageSource)
  packages : List (LockedPackageSource × LockFileEntry)
deriving DecidableEq, Repr

/-- LockFile::default. -/
def LockFile.defaultLF : LockFile := ⟨[], []⟩

/-- A locked dependency tree (package/src/manifest.rs, LockedSpec). -/
inductive LockedSpec where
  | mk (name : Name) (source : LockedPackageSource)
      (dependencies : List LockedSpec)

def LockedSpec.name : LockedSpec → Name
  | .mk n _ _ => n

def LockedSpec.source : LockedSpec → LockedPackageSource
  | .mk _ s _ => s

def LockedSpec.dependencies : LockedSpec → List LockedSpec
  | .mk _ _ d => d

/-- The lock-file entry recorded for a node by flatten_into: its name and the
(name, source) pairs of its direct dependencies. -/
def entryOf (s : LockedSpec) : LockFileEntry :=
  ⟨s.name, s.dependencies.map (fun d => (d.name, d.source))⟩

mutual

/-- Embedding of LockedSpec::flatten_into: insert this node under its source
with its direct dependencies as the entry, then flatten every dependency into
the same lock file. -/
def flatten_into : LockedSpec → LockFile → LockFile
  | .mk n src deps, lf =>
      flattenList deps
        { lf with
            packages := insertA lf.packages src (entryOf (.mk n src deps)) }

/-- The loop over dependencies at the end of flatten_into. -/
def flattenList : List LockedSpec → LockFile → LockFile
  | [], lf => lf
  | d :: rest, lf => flattenList rest (flatten_into d lf)

end

/-- Embedding of the lock-file construction in ManifestFile::lock: starting
from the default lock file, flatten each realized top-level spec and record
its name and source as a top-level dependency. -/
def lock_build (specs : List LockedSpec) : LockFile :=
  specs.foldl
    (fun acc s =>
      let acc1 := flatten_into s acc
      { acc1 with dependencies := insertA acc1.dependencies s.name s.source })
    LockFile.defaultLF

mutual

/-- All nodes of a locked dependency tree, the root included. -/
def nodes : LockedSpec → List LockedSpec
  | .mk n src deps => .mk n src deps :: nodesList deps

/-- All nodes of a forest of locked dependency trees. -/
def nodesList : List LockedSpec → List LockedSpec
  | [] => []
  | d :: rest => nodes d ++ nodesList rest

end

theorem self_mem_nodes (s : LockedSpec) : s ∈ nodes s := by
  cases s
  simp [nodes]

theorem mem_nodesList_of_mem {ds : List LockedSpec} {d : LockedSpec}
    (h : d ∈ ds) : d ∈ nodesList ds := by
  induction ds with
  | nil => cases h
  | cons x rest ih =>
      rcases List.mem_cons.mp h with h1 | h1
      · subst h1
        exact List.mem_append_left _ (self_mem_nodes d)
      · exact List.mem_append_right _ (ih h1)

mutual

theorem nodes_trans : ∀ (s t u : LockedSpec),
    t ∈ nodes s → u ∈ nodes t → u ∈ nodes s
  | .mk n src deps, t, u, ht, hu => by
      rw [nodes] at ht ⊢
      rcases List.mem_cons.mp ht with h1 | h1
      · subst h1
        exact hu
      · exact List.mem_cons_of_mem _ (nodesList_trans deps t u h1 hu)

theorem nodesList_trans : ∀ (ds : List LockedSpec) (t u : LockedSpec),
    t ∈ nodesList ds → u ∈ nodes t → u ∈ nodesList ds
  | d :: rest, t, u, ht, hu => by
      rw [nodesList] at ht ⊢
      rcases List.mem_append.mp ht with h1 | h1
      · exact List.mem_append_left _ (nodes_trans d t u h1 hu)
      · exact List.mem_append_right _ (nodesList_trans rest t u h1 hu)

end

mutual

theorem flatten_keeps : ∀ (s : LockedSpec) (lf : LockFile)
    (k : LockedPackageSource),
    (lookupA lf.packages k).isSome = true →
    (lookupA (flatten_into s lf).packages k).isSome = true
  | .mk n src deps, lf, k, h => by
      rw [flatten_into]
      apply flattenList_keeps deps
      rw [lookupA_insertA]
      by_cases hk : src = k <;> simp [hk, h]

theorem flattenList_keeps : ∀ (ds : List LockedSpec) (lf : LockFile)
    (k : LockedPackageSource),
    (lookupA lf.packages k).isSome = true →
    (lookupA (flattenList ds lf).packages k).isSome = true
  | [], _, _, h => h
  | d :: rest, lf, k, h =>
      flattenList_keeps rest _ k (flatten_keeps d lf k h)

end

mutual

theorem flatten_all_nodes : ∀ (s : LockedSpec) (lf : LockFile)
    (t : LockedSpec), t ∈ nodes s →
    (lookupA (flatten_into s lf).packages t.source).isSome = true
  | .mk n src deps, lf, t, ht => by
      rw [nodes] at ht
      rw [flatten_into]
      rcases List.mem_cons.mp ht with h1 | h1
      · subst h1
        apply flattenList_keeps deps
        rw [lookupA_insertA]
        simp [LockedSpec.source]
      · exact flattenList_all_nodes deps _ t h1

theorem flattenList_all_nodes : ∀ (ds : List LockedSpec) (lf : LockFile)
    (t : LockedSpec), t ∈ nodesList ds →
    (lookupA (flattenList ds lf).packages t.source).isSome = true
  | d :: rest, lf, t, ht => by
      rw [nodesList] at ht
      rw [flattenList]
      rcases List.mem_append.mp ht with h1 | h1
      · exact flattenList_keeps rest _ _ (flatten_all_nodes d lf t h1)
      · exact flattenList_all_nodes rest _ t h1

end

mutual

theorem flatten_entry_origin : ∀ (s : LockedSpec) (lf : LockFile)
    (k : LockedPackageSource) (e : LockFileEntry),
    lookupA (flatten_into s lf).packages k = some e →
    lookupA lf.packages k = some e ∨
      ∃ t, t ∈ nodes s ∧ t.source = k ∧ e = entryOf t
  | .mk n src deps, lf, k, e, h => by
      rw [flatten_into] at h
      rcases flattenList_entry_origin deps _ k e h with h1 | h1
      · rw [lookupA_insertA] at h1
        by_cases hk : src = k
        · rw [if_pos hk] at h1
          right
          refine ⟨.mk n src deps, self_mem_nodes _, hk, ?_⟩
          exact (Option.some_inj.mp h1).symm
        · rw [if_neg hk] at h1
          exact Or.inl h1
      · obtain ⟨t, htl, hsrc, he⟩ := h1
        right
        exact ⟨t, by rw [nodes]; exact List.mem_cons_of_mem _ htl, hsrc, he⟩

theorem flattenList_entry_origin : ∀ (ds : List LockedSpec) (lf : LockFile)
    (k : LockedPackageSource) (e : LockFileEntry),
    lookupA (flattenList ds lf).packages k = some e →
    lookupA lf.packages k = some e ∨
      ∃ t, t ∈ nodesList ds ∧ t.source = k ∧ e = entryOf t
  | [], lf, k, e, h => Or.inl h
  | d :: rest, lf, k, e, h => by
      rw [flattenList] at h
      rcases flattenList_entry_origin rest _ k e h with h1 | h1
      · rcases flatten_entry_origin d lf k e h1 with h2 | h2
        · exact Or.inl h2
        · obtain ⟨t, htl, hsrc, he⟩ := h2
          right
          exact ⟨t, by rw [nodesList]; exact List.mem_append_left _ htl,
            hsrc, he⟩
      · obtain ⟨t, htl, hsrc, he⟩ := h1
        right
        exact ⟨t, by rw [nodesList]; exact List.mem_append_right _ htl,
          hsrc, he⟩

end

/-- No dangling references: every source appearing as a dependency value in
some entry of the packages map is itself a key of the packages map. -/
def PackagesClosed (lf : LockFile) : Prop :=
  ∀ src entry, lookupA lf.packages src = some entry →
    ∀ nm dsrc, (nm, dsrc) ∈ entry.dependencies →
      (lookupA lf.packages dsrc).isSome = true

theorem flatten_closed (s : LockedSpec) (lf : LockFile)
    (h : PackagesClosed lf) : PackagesClosed (flatten_into s lf) := by
  intro k e hk nm dsrc hdep
  rcases flatten_entry_origin s lf k e hk with h1 | h1
  · exact flatten_keeps s lf dsrc (h k e h1 nm dsrc hdep)
  · obtain ⟨t, htl, _, he⟩ := h1
    subst he
    rw [entryOf] at hdep
    obtain ⟨d, hd, hde⟩ := List.mem_map.mp hdep
    have hds : dsrc = d.source := congrArg Prod.snd hde.symm
    subst hds
    have hdn : d ∈ nodes s :=
      nodes_trans s t d htl
        (by
          cases t
          rw [nodes]
          exact List.mem_cons_of_mem _
            (mem_nodesList_of_mem (by exact hd)))
    exact flatten_all_nodes s lf d hdn

/-- C2: the lock file built by ManifestFile::lock by flattening the realized
top-level dependency trees has a closed packages map: every source appearing
as a value in the dependencies map of any entry of packages is itself a key
of packages (no dangling references at all, so in particular the only
exception the claim permits is never exercised). -/
theorem lock_build_packages_closed (specs : List LockedSpec) :
    PackagesClosed (lock_build specs) := by
  rw [lock_build]
  have hstep : ∀ (l : List LockedSpec) (acc : LockFile), PackagesClosed acc →
      PackagesClosed (l.foldl
        (fun acc s =>
          let acc1 := flatten_into s acc
          { acc1 with
              dependencies := insertA acc1.dependencies s.name s.source }) acc) := by
    intro l
    induction l with
    | nil => exact fun acc h => h
    | cons s rest ih =>
        intro acc h
        rw [List.foldl_cons]
        apply ih
        intro k e hk nm dsrc hdep
        exact flatten_closed s acc h k e hk nm dsrc hdep
  apply hstep
  intro k e hk
  simp [LockFile.defaultLF, lookupA] at hk

/-- A concrete locked tree used as witness input: one top-level git package
with a single path dependency. -/
def specW : LockedSpec :=
  .mk ⟨['o'], ['a']⟩ (.git "u" oid0 NPath.relEmpty)
    [.mk ⟨['o'], ['b']⟩ (.path ⟨true, ["d"]⟩) []]

/-- C2 witness: in the lock file built from the concrete tree, the dependency
recorded in the top-level package's entry is itself a key of packages. -/
theorem lock_build_packages_closed_witness :
    (lookupA (lock_build [specW]).packages (.path ⟨true, ["d"]⟩)).isSome
      = true :=
  lock_build_packages_closed [specW] (.git "u" oid0 NPath.relEmpty)
    ⟨⟨['o'], ['a']⟩, [(⟨['o'], ['b']⟩, .path ⟨true, ["d"]⟩)]⟩
    (by decide) ⟨['o'], ['b']⟩ (.path ⟨true, ["d"]⟩) (by decide)

/-! ## Lock-file serialization and freshness (package/src/manifest.rs lock,
package/src/lock.rs package_list) -/

/-- A manifest-level package source (package/src/lib.rs, PackageSource). -/
inductive PackageSource where
  | git (url : String)
  | path (p : NPath)
deriving DecidableEq, Repr

/-- A manifest file: the directory containing it (None forbids path deps)
and its dependencies (package/src/manifest.rs, ManifestFile). -/
structure ManifestFile where
  parent_dir : Option NPath
  dependencies : List (Name × PackageSource)
deriving DecidableEq, Repr

/-- Embedding of PackageSource::matches_locked from package/src/lib.rs: a git
source matches a locked git source with the same URL; a path source matches a
locked path equal to the manifest directory joined with the path. -/
def matches_locked (src : PackageSource) (m : ManifestFile)
    (locked : LockedPackageSource) : Bool :=
  match src, locked with
  | .git url, .git repo _ _ => url == repo
  | .path p, .path lp =>
      match m.parent_dir with
      | some pd => pd.join p == lp
      | none => false
  | _, _ => false

/-- Embedding of ManifestFile::is_lock_file_up_to_date: every manifest
dependency must appear in the lock file's dependency map with a matching
locked source. -/
def is_lock_file_up_to_date (m : ManifestFile) (lf : LockFile) : Bool :=
  m.dependencies.all fun pr =>
    match lookupA lf.dependencies pr.1 with
    | some id => matches_locked pr.2 m id
    | none => false

/-- Embedding of ManifestFile::lockfile_path: the package.lock file next to
the manifest, or none when the manifest has no parent directory. -/
def lockfile_path (m : ManifestFile) : Option NPath :=
  m.parent_dir.map (fun pd => pd.joinComp "package.lock")

/-- Embedding of ManifestFile::find_lockfile: when the manifest has a
lockfile path, read and parse the file there and keep it only if it is up to
date. The filesystem read and the JSON parse are external I/O, replaced by
an optional already-parsed stored value; with no parent directory there is
no lockfile path and nothing is found. -/
def find_lockfile (m : ManifestFile) (stored : Option LockFile) :
    Option LockFile :=
  match lockfile_path m with
  | none => none
  | some _ =>
      stored.bind fun lf =>
        if is_lock_file_up_to_date m lf then some lf else none

/-- Embedding of Spec::realize: the git clone and HEAD lookup are external
I/O, abstracted as the resolve function giving the tree id a URL currently
resolves to; a git source locks to that tree at the repo root (empty in-repo
path), a path source is locked with its path unchanged. -/
def realize (resolve : String → ObjectId) : PackageSource →
    LockedPackageSource
  | .git url => .git url (resolve url) NPath.relEmpty
  | .path p => .path p

/-- The top-level dependencies map ManifestFile::lock builds: one realized
entry per manifest dependency, inserted in iteration order (realize_rec with
no relative_to leaves the top-level source exactly the realize result). -/
def lock_deps (resolve : String → ObjectId) (m : ManifestFile) :
    List (Name × LockedPackageSource) :=
  m.dependencies.foldl
    (fun acc pr => insertA acc pr.1 (realize resolve pr.2)) []

/-- Embedding of the control flow of ManifestFile::lock: return the stored
lock file untouched when it is found up to date, otherwise rebuild it from
the realized dependency specs (realization itself is I/O and is passed in)
and write it out when a lockfile path exists. The boolean records whether
the on-disk file was rewritten. -/
def lock_model (m : ManifestFile) (stored : Option LockFile)
    (realized : List LockedSpec) : LockFile × Bool :=
  match find_lockfile m stored with
  | some lf => (lf, false)
  | none => (lock_build realized, (lockfile_path m).isSome)

/-- A JSON string literal (escaping is irrelevant for the inputs used). -/
def jString (s : String) : String := "\"" ++ s ++ "\""

/-- A JSON object field. -/
def jField (k v : String) : String := jString k ++ ":" ++ v

/-- A JSON object. -/
def jObj (fields : List String) : String :=
  "\x7b" ++ String.intercalate "," fields ++ "\x7d"

/-- A JSON array. -/
def jArr (items : List String) : String :=
  "[" ++ String.intercalate "," items ++ "]"

/-- Render a path for serialization. -/
def serPath (p : NPath) : String :=
  (if p.absolute then "/" else "") ++ String.intercalate "/" p.comps

/-- Display form of a Name, org/package. -/
def nameString (n : Name) : String :=
  String.mk n.org ++ "/" ++ String.mk n.package

/-- Modelled from the spec: serde serialization of a LockedPackageSource,
externally tagged. -/
def serSource : LockedPackageSource → String
  | .git repo tree p =>
      jObj [jField "Git" (jObj [jField "repo" (jString repo),
        jField "tree" (jString (treeString tree)),
        jField "path" (jString (serPath p))])]
  | .path p => jObj [jField "Path" (jObj [jField "path" (jString (serPath p))])]

/-- Modelled from the spec: serde serialization of a dependency map, in map
iteration order (modelled as the list order). -/
def serDeps (deps : List (Name × LockedPackageSource)) : String :=
  jObj (deps.map (fun pr => jField (nameString pr.1) (serSource pr.2)))

/-- Embedding of package_list::serialize from package/src/lock.rs: the
packages map becomes a list of entries, each carrying the source and the
flattened entry fields, in map iteration order (modelled as the list
order). -/
def package_list_serialize
    (h : List (LockedPackageSource × LockFileEntry)) : String :=
  jArr (h.map (fun pr =>
    jObj [jField "source" (serSource pr.1),
      jField "name" (jString (nameString pr.2.name)),
      jField "dependencies" (serDeps pr.2.dependencies)]))

/-- Modelled from the spec: serde_json serialization of a whole LockFile,
with the packages field going through the package_list module. -/
def serializeLockFile (lf : LockFile) : String :=
  jObj [jField "dependencies" (serDeps lf.dependencies),
    jField "packages" (package_list_serialize lf.packages)]

/-- Two association lists that are equal as maps. -/
def MapEquiv {κ ν : Type} [DecidableEq κ] (m1 m2 : List (κ × ν)) : Prop :=
  ∀ k, lookupA m1 k = lookupA m2 k

/-- Two lock files that are equal as maps (same dependency map and same
packages map). -/
def LockFileEquiv (lf1 lf2 : LockFile) : Prop :=
  MapEquiv lf1.dependencies lf2.dependencies ∧
    MapEquiv lf1.packages lf2.packages

/-- First concrete package source for the serialization counterexample. -/
def srcA : LockedPackageSource := .path ⟨true, ["a"]⟩

/-- Second concrete package source for the serialization counterexample. -/
def srcB : LockedPackageSource := .path ⟨true, ["b"]⟩

/-- Entry for srcA. -/
def entA : LockFileEntry := ⟨⟨['o'], ['a']⟩, []⟩

/-- Entry for srcB. -/
def entB : LockFileEntry := ⟨⟨['o'], ['b']⟩, []⟩

/-- A lock file with the two packages in one iteration order. -/
def lfAB : LockFile := ⟨[], [(srcA, entA), (srcB, entB)]⟩

/-- The same lock file as a map, with the opposite iteration order. -/
def lfBA : LockFile := ⟨[], [(srcB, entB), (srcA, entA)]⟩

/-- C4 counterexample: two lock files that are equal as maps serialize to
different byte strings, so the packages map is not serialized in a canonical
order and serialization is not a function of the map contents. -/
theorem serialize_not_canonical :
    LockFileEquiv lfAB lfBA ∧
      serializeLockFile lfAB ≠ serializeLockFile lfBA := by
  refine ⟨⟨fun k => rfl, fun k => ?_⟩, by decide⟩
  by_cases h1 : srcA = k
  · subst h1
    simp [lfAB, lfBA, lookupA, show srcB ≠ srcA from by decide]
  · by_cases h2 : srcB = k
    · subst h2
      simp [lfAB, lfBA, lookupA, h1]
    · simp [lfAB, lfBA, lookupA, h1, h2]

theorem lock_deps_foldl_not_mem (resolve : String → ObjectId) :
    ∀ (l : List (Name × PackageSource))
      (acc : List (Name × LockedPackageSource)) (name : Name),
      name ∉ l.map Prod.fst →
      lookupA (l.foldl
        (fun acc pr => insertA acc pr.1 (realize resolve pr.2)) acc) name =
        lookupA acc name := by
  intro l
  induction l with
  | nil => intro acc name _; rfl
  | cons pr rest ih =>
      intro acc name hnm
      obtain ⟨n0, s0⟩ := pr
      simp only [List.map_cons, List.mem_cons, not_or] at hnm
      rw [List.foldl_cons, ih _ name hnm.2, lookupA_insertA]
      rw [if_neg (fun h => hnm.1 h.symm)]

theorem lock_deps_foldl_lookup (resolve : String → ObjectId) :
    ∀ (l : List (Name × PackageSource))
      (acc : List (Name × LockedPackageSource)) (name : Name)
      (src : PackageSource),
      (l.map Prod.fst).Nodup → (name, src) ∈ l →
      lookupA (l.foldl
        (fun acc pr => insertA acc pr.1 (realize resolve pr.2)) acc) name =
        some (realize resolve src) := by
  intro l
  induction l with
  | nil => intro acc name src _ hmem; cases hmem
  | cons pr rest ih =>
      intro acc name src hnodup hmem
      obtain ⟨n0, s0⟩ := pr
      simp only [List.map_cons, List.nodup_cons] at hnodup
      rcases List.mem_cons.mp hmem with heq | hmem1
      · obtain ⟨rfl, rfl⟩ := Prod.mk.injEq _ _ _ _ ▸ heq
        rw [List.foldl_cons,
          lock_deps_foldl_not_mem resolve rest _ name hnodup.1,
          lookupA_insertA, if_pos rfl]
      · rw [List.foldl_cons]
        exact ih _ name src hnodup.2 hmem1

theorem lookupA_lock_deps (resolve : String → ObjectId) (m : ManifestFile)
    (name : Name) (src : PackageSource)
    (hnodup : (m.dependencies.map Prod.fst).Nodup)
    (hmem : (name, src) ∈ m.dependencies) :
    lookupA (lock_deps resolve m) name = some (realize resolve src) :=
  lock_deps_foldl_lookup resolve m.dependencies [] name src hnodup hmem

/-- C4 amended: running lock a second time with no filesystem changes
(the same stored dependencies map and the same git resolution) rereads the
lockfile lock itself built. For a manifest whose dependencies are all git
sources, the second run finds it up to date and returns it without
rewriting, so the on-disk bytes stay identical. But a manifest with a
relative path dependency never finds its own lockfile up to date —
matches_locked compares parent_dir.join(path) against the stored
manifest-relative path — so lock rebuilds and rewrites the file on every
run, and byte-identity then rests on the map serialization order, which is
not canonical. -/
theorem lock_second_run :
    (∀ (m : ManifestFile) (pd : NPath) (resolve : String → ObjectId)
      (pkgs : List (LockedPackageSource × LockFileEntry))
      (rs : List LockedSpec),
      m.parent_dir = some pd →
      (m.dependencies.map Prod.fst).Nodup →
      (∀ pr ∈ m.dependencies, ∃ url, pr.2 = PackageSource.git url) →
      lock_model m (some ⟨lock_deps resolve m, pkgs⟩) rs =
        (⟨lock_deps resolve m, pkgs⟩, false)) ∧
    (∀ (m : ManifestFile) (pd : NPath) (resolve : String → ObjectId)
      (pkgs : List (LockedPackageSource × LockFileEntry))
      (rs : List LockedSpec) (name : Name) (p : NPath),
      m.parent_dir = some pd → pd.absolute = true →
      (m.dependencies.map Prod.fst).Nodup →
      (name, PackageSource.path p) ∈ m.dependencies → p.absolute = false →
      lock_model m (some ⟨lock_deps resolve m, pkgs⟩) rs =
        (lock_build rs, true)) := by
  constructor
  · intro m pd resolve pkgs rs hpd hnodup hgit
    have hup : is_lock_file_up_to_date m ⟨lock_deps resolve m, pkgs⟩ =
        true := by
      rw [is_lock_file_up_to_date, List.all_eq_true]
      intro pr hpr
      obtain ⟨url, hurl⟩ := hgit pr hpr
      have hlook : lookupA (lock_deps resolve m) pr.1 =
          some (realize resolve pr.2) :=
        lookupA_lock_deps resolve m pr.1 pr.2 hnodup (by
          rw [show (pr.1, pr.2) = pr from rfl]
          exact hpr)
      simp only [hlook, hurl, realize, matches_locked]
      simp
    simp [lock_model, find_lockfile, lockfile_path, hpd, hup]
  · intro m pd resolve pkgs rs name p hpd habs hnodup hmem hrel
    have hlook : lookupA (lock_deps resolve m) name =
        some (realize resolve (.path p)) :=
      lookupA_lock_deps resolve m name (.path p) hnodup hmem
    have hnomatch : matches_locked (.path p) m (.path p) = false := by
      rw [matches_locked, hpd]
      have : pd.join p ≠ p := by
        intro h
        have := congrArg NPath.absolute h
        rw [NPath.join, if_neg (by rw [hrel]; exact Bool.false_ne_true)]
          at this
        rw [habs, hrel] at this
        exact Bool.true_eq_false ▸ this
      simp [this]
    have hup : is_lock_file_up_to_date m ⟨lock_deps resolve m, pkgs⟩ =
        false := by
      rw [is_lock_file_up_to_date, List.all_eq_false]
      refine ⟨(name, .path p), hmem, ?_⟩
      simp only [hlook, realize]
      simp [hnomatch]
    simp [lock_model, find_lockfile, lockfile_path, hpd, hup]

/-- C4 amended witness: a one-git-dependency manifest whose lockfile the
second run keeps without rewriting, and a one-relative-path-dependency
manifest whose lockfile is rewritten on every run. -/
theorem lock_second_run_witness :
    lock_model
        ⟨some ⟨true, ["proj"]⟩, [(⟨['o'], ['g']⟩, .git "u")]⟩
        (some ⟨lock_deps (fun _ => oid0)
          ⟨some ⟨true, ["proj"]⟩, [(⟨['o'], ['g']⟩, .git "u")]⟩, []⟩) [] =
      (⟨lock_deps (fun _ => oid0)
          ⟨some ⟨true, ["proj"]⟩, [(⟨['o'], ['g']⟩, .git "u")]⟩, []⟩,
        false) ∧
    lock_model
        ⟨some ⟨true, ["proj"]⟩, [(⟨['o'], ['p']⟩, .path ⟨false, ["d"]⟩)]⟩
        (some ⟨lock_deps (fun _ => oid0)
          ⟨some ⟨true, ["proj"]⟩,
            [(⟨['o'], ['p']⟩, .path ⟨false, ["d"]⟩)]⟩, []⟩) [] =
      (lock_build [], true) :=
  ⟨lock_second_run.1
      ⟨some ⟨true, ["proj"]⟩, [(⟨['o'], ['g']⟩, .git "u")]⟩
      ⟨true, ["proj"]⟩ (fun _ => oid0) [] [] rfl (by decide)
      (by
        intro pr hpr
        simp only [List.mem_singleton] at hpr
        subst hpr
        exact ⟨"u", rfl⟩),
    lock_second_run.2
      ⟨some ⟨true, ["proj"]⟩, [(⟨['o'], ['p']⟩, .path ⟨false, ["d"]⟩)]⟩
      ⟨true, ["proj"]⟩ (fun _ => oid0) [] [] ⟨['o'], ['p']⟩
      ⟨false, ["d"]⟩ rfl rfl (by decide) (by decide) rfl⟩

/-! ## Terms (core/src/term/mod.rs)

The AST is embedded with every constructor of the Term enum. Payloads that
the covered operations treat atomically (labels, types, annotations,
destructuring patterns attached to binders, array attributes, errors, field
metadata beyond the value) are modelled as opaque tokens: equality compares
them by token and traversal does not descend into them. Record fields keep
only their optional value. -/

/-- Unary operators. Operators are tokens here: the catalogue carries no
subterms, and equality and traversal treat operators atomically. -/
inductive UnaryOp where
  | ite
  | typeof
  | boolAnd
  | boolOr
  | boolNot
  | blame
  | embed (id : String)
  | matchOp (hasDefault : Bool)
  | staticAccess (id : String)
  | arrayMap
  | recordMap
  | changePolarity
  | pol
  | goDom
  | goCodom
  | enumGetTag
  | enumIsVariant
  | enumUnwrapVariant
  | patternBranch
  | seq
  | deepSeq
  | force (ignoreNotExported : Bool)
  | recDefault
  | recForce
deriving DecidableEq, Repr

/-- Record operation kind (core/src/term/mod.rs, RecordOpKind). -/
inductive RecordOpKind where
  | ignoreEmptyOpt
  | considerAllFields
deriving DecidableEq, Repr

/-- Record extension kind (core/src/term/record.rs, RecordExtKind). -/
inductive RecordExtKind where
  | withValue
  | withoutValue
deriving DecidableEq, Repr

/-- Binary operators, as tokens (the DynExtend metadata and pending
contracts are dropped; its kinds are kept). -/
inductive BinaryOp where
  | plus
  | sub
  | mult
  | div
  | modulo
  | strConcat
  | eq
  | lessThan
  | lessOrEq
  | greaterThan
  | greaterOrEq
  | dynExtend (extKind : RecordExtKind) (opKind : RecordOpKind)
  | dynRemove (opKind : RecordOpKind)
  | dynAccess
  | fieldIsDefined (opKind : RecordOpKind)
  | arrayConcat
  | arrayElemAt
  | merge
  | seal
  | unseal
  | applyContract
deriving DecidableEq, Repr

/-- N-ary operators, as tokens. -/
inductive NAryOp where
  | strReplace
  | strReplaceRegex
  | strSubstr
  | recordSealTail
  | recordUnsealTail
  | insertTypeVar
  | arraySlice
deriving DecidableEq, Repr

/-- Type of a let binding (core/src/term/mod.rs, BindingType); the
revertible dependency set is an opaque token. -/
inductive BindingType where
  | normal
  | revertible (deps : Nat)
deriving DecidableEq, Repr

/-- Attributes of a let (core/src/term/mod.rs, LetAttrs). -/
structure LetAttrs where
  binding_type : BindingType
  recursive : Bool
deriving DecidableEq, Repr

mutual

/-- The Term enum of core/src/term/mod.rs, one Lean constructor per Rust
variant. Numbers are rationals; identifiers are strings; labels, types,
annotations, binder patterns, array attributes, record dependency sets and
error payloads are opaque tokens. -/
inductive Term where
  | null
  | bool (b : Bool)
  | num (n : ℚ)
  | str (s : String)
  | strChunks (chunks : List StrChunk)
  | fun_ (id : String) (body : Term)
  | funPattern (alias_ : Option String) (pat : Nat) (body : Term)
  | lbl (l : Nat)
  | let_ (id : String) (bound : Term) (body : Term) (attrs : LetAttrs)
  | letPattern (alias_ : Option String) (pat : Nat) (bound : Term)
      (body : Term)
  | app (f : Term) (x : Term)
  | var (id : String)
  | enum (tag : String)
  | record (fields : List (String × Field))
  | recRecord (fields : List (String × Field))
      (dynFields : List (Term × Field)) (deps : Option Nat)
  | matchT (cases : List (String × Term)) (default : Option Term)
  | array (ts : List Term) (attrs : Nat)
  | op1 (op : UnaryOp) (t : Term)
  | op2 (op : BinaryOp) (t1 : Term) (t2 : Term)
  | opN (op : NAryOp) (ts : List Term)
  | sealingKey (k : Int)
  | sealed (k : Int) (t : Term) (l : Nat)
  | annotated (annot : Nat) (t : Term)
  | import_ (path : String)
  | resolvedImport (fileId : Nat)
  | type_ (ty : Nat)
  | parseError (e : Nat)
  | runtimeError (e : Nat)
  | closure (idx : Nat)

/-- A string chunk (literal or interpolated expression); the chunk list in
strChunks is stored in reverse order, as in the source. -/
inductive StrChunk where
  | literal (s : String)
  | expr (t : Term) (indent : Nat)

/-- A record field, keeping only the optional value of the Rust Field
struct. -/
inductive Field where
  | mk (value : Option Term)

end

/-- Traversal order (core/src/term/mod.rs, TraverseOrder). -/
inductive TraverseOrder where
  | topDown
  | bottomUp
deriving DecidableEq, Repr

mutual

/-- Size of a term: one plus the sizes of the subterms reachable by
traversal. Fuel for the traversal function is measured with it. -/
def sizeT : Term → Nat
  | .null => 1
  | .bool _ => 1
  | .num _ => 1
  | .str _ => 1
  | .strChunks cs => sizeChunks cs + 1
  | .fun_ _ b => sizeT b + 1
  | .funPattern _ _ b => sizeT b + 1
  | .lbl _ => 1
  | .let_ _ t1 t2 _ => sizeT t1 + sizeT t2 + 1
  | .letPattern _ _ t1 t2 => sizeT t1 + sizeT t2 + 1
  | .app t1 t2 => sizeT t1 + sizeT t2 + 1
  | .var _ => 1
  | .enum _ => 1
  | .record fs => sizeFields fs + 1
  | .recRecord fs dyn _ => sizeFields fs + sizeDyn dyn + 1
  | .matchT cs d => sizeCases cs + sizeOpt d + 1
  | .array ts _ => sizeList ts + 1
  | .op1 _ t => sizeT t + 1
  | .op2 _ t1 t2 => sizeT t1 + sizeT t2 + 1
  | .opN _ ts => sizeList ts + 1
  | .sealingKey _ => 1
  | .sealed _ t _ => sizeT t + 1
  | .annotated _ t => sizeT t + 1
  | .import_ _ => 1
  | .resolvedImport _ => 1
  | .type_ _ => 1
  | .parseError _ => 1
  | .runtimeError _ => 1
  | .closure _ => 1

def sizeList : List Term → Nat
  | [] => 0
  | t :: rest => sizeT t + sizeList rest

def sizeOpt : Option Term → Nat
  | none => 0
  | some t => sizeT t + 1

def sizeField : Field → Nat
  | .mk v => sizeOpt v + 1

def sizeFields : List (String × Field) → Nat
  | [] => 0
  | (_, f) :: rest => sizeField f + sizeFields rest

def sizeDyn : List (Term × Field) → Nat
  | [] => 0
  | (t, f) :: rest => sizeT t + sizeField f + sizeDyn rest

def sizeCases : List (String × Term) → Nat
  | [] => 0
  | (_, t) :: rest => sizeT t + sizeCases rest

def sizeChunks : List StrChunk → Nat
  | [] => 0
  | .literal _ :: rest => sizeChunks rest + 1
  | .expr t _ :: rest => sizeT t + sizeChunks rest + 1

end

/-- Sequencing for fuelled fallible traversals: none is fuel exhaustion,
some error short-circuits. -/
def oeBind {ε α β : Type} (r : Option (Except ε α))
    (k : α → Option (Except ε β)) : Option (Except ε β) :=
  match r with
  | none => none
  | some (.error e) => some (.error e)
  | some (.ok a) => k a

/-- Traverse a list of terms with the supplied fuelled traversal. -/
def travListF {ε : Type} (g : Term → Option (Except ε Term)) :
    List Term → Option (Except ε (List Term))
  | [] => some (.ok [])
  | t :: rest =>
      oeBind (g t) fun a =>
        oeBind (travListF g rest) fun as_ => some (.ok (a :: as_))

/-- Traverse an optional term. -/
def travOptF {ε : Type} (g : Term → Option (Except ε Term)) :
    Option Term → Option (Except ε (Option Term))
  | none => some (.ok none)
  | some t => oeBind (g t) fun a => some (.ok (some a))

/-- Traverse a record field (its optional value). -/
def travFieldF {ε : Type} (g : Term → Option (Except ε Term)) :
    Field → Option (Except ε Field)
  | .mk v => oeBind (travOptF g v) fun v1 => some (.ok (.mk v1))

/-- Traverse the static fields of a record. -/
def travFieldsF {ε : Type} (g : Term → Option (Except ε Term)) :
    List (String × Field) → Option (Except ε (List (String × Field)))
  | [] => some (.ok [])
  | (s, f) :: rest =>
      oeBind (travFieldF g f) fun f1 =>
        oeBind (travFieldsF g rest) fun rest1 => some (.ok ((s, f1) :: rest1))

/-- Traverse the dynamic fields of a recursive record (interpolated name
first, then the field, as traverse_1 pushes them). -/
def travDynF {ε : Type} (g : Term → Option (Except ε Term)) :
    List (Term × Field) → Option (Except ε (List (Term × Field)))
  | [] => some (.ok [])
  | (t, f) :: rest =>
      oeBind (g t) fun t1 =>
        oeBind (travFieldF g f) fun f1 =>
          oeBind (travDynF g rest) fun rest1 =>
            some (.ok ((t1, f1) :: rest1))

/-- Traverse the branches of a match expression. -/
def travCasesF {ε : Type} (g : Term → Option (Except ε Term)) :
    List (String × Term) → Option (Except ε (List (String × Term)))
  | [] => some (.ok [])
  | (s, t) :: rest =>
      oeBind (g t) fun t1 =>
        oeBind (travCasesF g rest) fun rest1 => some (.ok ((s, t1) :: rest1))

/-- Traverse string chunks (only expression chunks hold terms). -/
def travChunksF {ε : Type} (g : Term → Option (Except ε Term)) :
    List StrChunk → Option (Except ε (List StrChunk))
  | [] => some (.ok [])
  | .literal s :: rest =>
      oeBind (travChunksF g rest) fun rest1 =>
        some (.ok (.literal s :: rest1))
  | .expr t i :: rest =>
      oeBind (g t) fun t1 =>
        oeBind (travChunksF g rest) fun rest1 =>
          some (.ok (.expr t1 i :: rest1))

/-- Apply a fuelled traversal to every direct child of a node and rebuild
it. The child enumeration mirrors Traverse1::traverse_1 in
core/src/term/mod.rs: leaves (including Closure, whose contents are opaque
at this layer) have no children; types and annotations are atomic here. -/
def mapChildren {ε : Type} (g : Term → Option (Except ε Term)) :
    Term → Option (Except ε Term)
  | .null => some (.ok .null)
  | .bool b => some (.ok (.bool b))
  | .num n => some (.ok (.num n))
  | .str s => some (.ok (.str s))
  | .strChunks cs =>
      oeBind (travChunksF g cs) fun cs1 => some (.ok (.strChunks cs1))
  | .fun_ id b => oeBind (g b) fun b1 => some (.ok (.fun_ id b1))
  | .funPattern a p b =>
      oeBind (g b) fun b1 => some (.ok (.funPattern a p b1))
  | .lbl l => some (.ok (.lbl l))
  | .let_ id t1 t2 at1 =>
      oeBind (g t1) fun u1 =>
        oeBind (g t2) fun u2 => some (.ok (.let_ id u1 u2 at1))
  | .letPattern a p t1 t2 =>
      oeBind (g t1) fun u1 =>
        oeBind (g t2) fun u2 => some (.ok (.letPattern a p u1 u2))
  | .app t1 t2 =>
      oeBind (g t1) fun u1 =>
        oeBind (g t2) fun u2 => some (.ok (.app u1 u2))
  | .var id => some (.ok (.var id))
  | .enum tag => some (.ok (.enum tag))
  | .record fs =>
      oeBind (travFieldsF g fs) fun fs1 => some (.ok (.record fs1))
  | .recRecord fs dyn deps =>
      oeBind (travFieldsF g fs) fun fs1 =>
        oeBind (travDynF g dyn) fun dyn1 =>
          some (.ok (.recRecord fs1 dyn1 deps))
  | .matchT cs d =>
      oeBind (travCasesF g cs) fun cs1 =>
        oeBind (travOptF g d) fun d1 => some (.ok (.matchT cs1 d1))
  | .array ts at1 =>
      oeBind (travListF g ts) fun ts1 => some (.ok (.array ts1 at1))
  | .op1 op t => oeBind (g t) fun t1 => some (.ok (.op1 op t1))
  | .op2 op t1 t2 =>
      oeBind (g t1) fun u1 =>
        oeBind (g t2) fun u2 => some (.ok (.op2 op u1 u2))
  | .opN op ts =>
      oeBind (travListF g ts) fun ts1 => some (.ok (.opN op ts1))
  | .sealingKey k => some (.ok (.sealingKey k))
  | .sealed k t l => oeBind (g t) fun t1 => some (.ok (.sealed k t1 l))
  | .annotated an t => oeBind (g t) fun t1 => some (.ok (.annotated an t1))
  | .import_ p => some (.ok (.import_ p))
  | .resolvedImport f => some (.ok (.resolvedImport f))
  | .type_ ty => some (.ok (.type_ ty))
  | .parseError e => some (.ok (.parseError e))
  | .runtimeError e => some (.ok (.runtimeError e))
  | .closure idx => some (.ok (.closure idx))

/-- Embedding of Traverse::traverse from core/src/term/mod.rs: rewrite every
node by f, top-down (apply, then recurse on the rewritten node's children)
or bottom-up (recurse on the children, then apply), with errors
short-circuiting. The source implements this iteratively with an explicit
stack of Recurse/ApplyF instructions over in-place pointers; the embedding
passes the rebuilt term explicitly and uses fuel (none means fuel ran out,
which on the identity traversal never happens for fuel at least sizeT). -/
def traverseF {ε : Type} (f : Term → Except ε Term) (order : TraverseOrder) :
    Nat → Term → Option (Except ε Term)
  | 0, _ => none
  | n + 1, t =>
      match order with
      | .topDown =>
          match f t with
          | .error e => some (.error e)
          | .ok t1 => mapChildren (traverseF f order n) t1
      | .bottomUp =>
          match mapChildren (traverseF f order n) t with
          | none => none
          | some (.error e) => some (.error e)
          | some (.ok t1) => some (f t1)

mutual

/-- Embedding of the hand-written PartialEq instance for Term: structural
comparison by cases, except that two Closure nodes always compare unequal
and any two different variants compare unequal. The Rust match over the pair
is rendered as a match on the left operand with an inner match on the
right. -/
def beqTerm : Term → Term → Bool
  | .null, t2 =>
      match t2 with
      | .null => true
      | _ => false
  | .bool a, t2 =>
      match t2 with
      | .bool b => a == b
      | _ => false
  | .num a, t2 =>
      match t2 with
      | .num b => a == b
      | _ => false
  | .str a, t2 =>
      match t2 with
      | .str b => a == b
      | _ => false
  | .strChunks a, t2 =>
      match t2 with
      | .strChunks b => beqChunks a b
      | _ => false
  | .fun_ i1 b1, t2 =>
      match t2 with
      | .fun_ i2 b2 => i1 == i2 && beqTerm b1 b2
      | _ => false
  | .funPattern a1 p1 b1, t2 =>
      match t2 with
      | .funPattern a2 p2 b2 => a1 == a2 && p1 == p2 && beqTerm b1 b2
      | _ => false
  | .lbl a, t2 =>
      match t2 with
      | .lbl b => a == b
      | _ => false
  | .let_ i1 t1 u1 at1, t2 =>
      match t2 with
      | .let_ i2 s2 u2 at2 =>
          i1 == i2 && beqTerm t1 s2 && beqTerm u1 u2 && at1 == at2
      | _ => false
  | .letPattern a1 p1 t1 u1, t2 =>
      match t2 with
      | .letPattern a2 p2 s2 u2 =>
          a1 == a2 && p1 == p2 && beqTerm t1 s2 && beqTerm u1 u2
      | _ => false
  | .app f1 x1, t2 =>
      match t2 with
      | .app f2 x2 => beqTerm f1 f2 && beqTerm x1 x2
      | _ => false
  | .var a, t2 =>
      match t2 with
      | .var b => a == b
      | _ => false
  | .enum a, t2 =>
      match t2 with
      | .enum b => a == b
      | _ => false
  | .record f1, t2 =>
      match t2 with
      | .record f2 => beqFields f1 f2
      | _ => false
  | .recRecord f1 d1 dep1, t2 =>
      match t2 with
      | .recRecord f2 d2 dep2 =>
          beqFields f1 f2 && beqDyn d1 d2 && dep1 == dep2
      | _ => false
  | .matchT c1 d1, t2 =>
      match t2 with
      | .matchT c2 d2 => beqCases c1 c2 && beqOpt d1 d2
      | _ => false
  | .array t1 a1, t2 =>
      match t2 with
      | .array s2 a2 => beqList t1 s2 && a1 == a2
      | _ => false
  | .op1 o1 t1, t2 =>
      match t2 with
      | .op1 o2 s2 => o1 == o2 && beqTerm t1 s2
      | _ => false
  | .op2 o1 s1 t1, t2 =>
      match t2 with
      | .op2 o2 s2 u2 => o1 == o2 && beqTerm s1 s2 && beqTerm t1 u2
      | _ => false
  | .opN o1 t1, t2 =>
      match t2 with
      | .opN o2 s2 => o1 == o2 && beqList t1 s2
      | _ => false
  | .sealingKey a, t2 =>
      match t2 with
      | .sealingKey b => a == b
      | _ => false
  | .sealed k1 t1 l1, t2 =>
      match t2 with
      | .sealed k2 s2 l2 => k1 == k2 && beqTerm t1 s2 && l1 == l2
      | _ => false
  | .annotated a1 t1, t2 =>
      match t2 with
      | .annotated a2 s2 => a1 == a2 && beqTerm t1 s2
      | _ => false
  | .import_ a, t2 =>
      match t2 with
      | .import_ b => a == b
      | _ => false
  | .resolvedImport a, t2 =>
      match t2 with
      | .resolvedImport b => a == b
      | _ => false
  | .type_ a, t2 =>
      match t2 with
      | .type_ b => a == b
      | _ => false
  | .parseError a, t2 =>
      match t2 with
      | .parseError b => a == b
      | _ => false
  | .runtimeError a, t2 =>
      match t2 with
      | .runtimeError b => a == b
      | _ => false
  | .closure _, t2 =>
      match t2 with
      | .closure _ => false
      | _ => false

def beqList : List Term → List Term → Bool
  | [], l2 =>
      match l2 with
      | [] => true
      | _ => false
  | t1 :: r1, l2 =>
      match l2 with
      | t2 :: r2 => beqTerm t1 t2 && beqList r1 r2
      | _ => false

def beqOpt : Option Term → Option Term → Bool
  | none, o2 =>
      match o2 with
      | none => true
      | _ => false
  | some t1, o2 =>
      match o2 with
      | some t2 => beqTerm t1 t2
      | _ => false

def beqField : Field → Field → Bool
  | .mk v1, .mk v2 => beqOpt v1 v2

def beqFields : List (String × Field) → List (String × Field) → Bool
  | [], l2 =>
      match l2 with
      | [] => true
      | _ => false
  | (s1, f1) :: r1, l2 =>
      match l2 with
      | (s2, f2) :: r2 => s1 == s2 && beqField f1 f2 && beqFields r1 r2
      | _ => false

def beqDyn : List (Term × Field) → List (Term × Field) → Bool
  | [], l2 =>
      match l2 with
      | [] => true
      | _ => false
  | (t1, f1) :: r1, l2 =>
      match l2 with
      | (t2, f2) :: r2 => beqTerm t1 t2 && beqField f1 f2 && beqDyn r1 r2
      | _ => false

def beqCases : List (String × Term) → List (String × Term) → Bool
  | [], l2 =>
      match l2 with
      | [] => true
      | _ => false
  | (s1, t1) :: r1, l2 =>
      match l2 with
      | (s2, t2) :: r2 => s1 == s2 && beqTerm t1 t2 && beqCases r1 r2
      | _ => false

def beqChunks : List StrChunk → List StrChunk → Bool
  | [], l2 =>
      match l2 with
      | [] => true
      | _ => false
  | .literal s1 :: r1, l2 =>
      match l2 with
      | .literal s2 :: r2 => s1 == s2 && beqChunks r1 r2
      | _ => false
  | .expr t1 i1 :: r1, l2 =>
      match l2 with
      | .expr t2 i2 :: r2 => beqTerm t1 t2 && i1 == i2 && beqChunks r1 r2
      | _ => false

end

mutual

/-- True when a term contains no Closure node anywhere. -/
def noClos : Term → Bool
  | .null => true
  | .bool _ => true
  | .num _ => true
  | .str _ => true
  | .strChunks cs => noClosChunks cs
  | .fun_ _ b => noClos b
  | .funPattern _ _ b => noClos b
  | .lbl _ => true
  | .let_ _ t1 t2 _ => noClos t1 && noClos t2
  | .letPattern _ _ t1 t2 => noClos t1 && noClos t2
  | .app t1 t2 => noClos t1 && noClos t2
  | .var _ => true
  | .enum _ => true
  | .record fs => noClosFields fs
  | .recRecord fs dyn _ => noClosFields fs && noClosDyn dyn
  | .matchT cs d => noClosCases cs && noClosOpt d
  | .array ts _ => noClosList ts
  | .op1 _ t => noClos t
  | .op2 _ t1 t2 => noClos t1 && noClos t2
  | .opN _ ts => noClosList ts
  | .sealingKey _ => true
  | .sealed _ t _ => noClos t
  | .annotated _ t => noClos t
  | .import_ _ => true
  | .resolvedImport _ => true
  | .type_ _ => true
  | .parseError _ => true
  | .runtimeError _ => true
  | .closure _ => false

def noClosList : List Term → Bool
  | [] => true
  | t :: rest => noClos t && noClosList rest

def noClosOpt : Option Term → Bool
  | none => true
  | some t => noClos t

def noClosField : Field → Bool
  | .mk v => noClosOpt v

def noClosFields : List (String × Field) → Bool
  | [] => true
  | (_, f) :: rest => noClosField f && noClosFields rest

def noClosDyn : List (Term × Field) → Bool
  | [] => true
  | (t, f) :: rest => noClos t && noClosField f && noClosDyn rest

def noClosCases : List (String × Term) → Bool
  | [] => true
  | (_, t) :: rest => noClos t && noClosCases rest

def noClosChunks : List StrChunk → Bool
  | [] => true
  | .literal _ :: rest => noClosChunks rest
  | .expr t _ :: rest => noClos t && noClosChunks rest

end

theorem sizeT_pos (t : Term) : 1 ≤ sizeT t := by
  cases t <;> simp only [sizeT] <;> omega

/-- The identity rewriting function of the claim: never errors. -/
def idTraversal : Term → Except Unit Term := fun t => .ok t

theorem travListF_id {ε : Type} (g : Term → Option (Except ε Term)) (k : Nat)
    (hg : ∀ x, sizeT x ≤ k → g x = some (.ok x)) :
    ∀ l, sizeList l ≤ k → travListF g l = some (.ok l) := by
  intro l
  induction l with
  | nil => intro _; rfl
  | cons t rest ih =>
      intro h
      simp only [sizeList] at h
      have ht : sizeT t ≤ k := by omega
      have hr : sizeList rest ≤ k := by omega
      simp [travListF, hg t ht, ih hr, oeBind]

theorem travOptF_id {ε : Type} (g : Term → Option (Except ε Term)) (k : Nat)
    (hg : ∀ x, sizeT x ≤ k → g x = some (.ok x)) :
    ∀ o, sizeOpt o ≤ k → travOptF g o = some (.ok o) := by
  intro o h
  cases o with
  | none => rfl
  | some t =>
      simp only [sizeOpt] at h
      simp [travOptF, hg t (by omega), oeBind]

theorem travFieldF_id {ε : Type} (g : Term → Option (Except ε Term)) (k : Nat)
    (hg : ∀ x, sizeT x ≤ k → g x = some (.ok x)) :
    ∀ f, sizeField f ≤ k → travFieldF g f = some (.ok f) := by
  intro f h
  obtain ⟨v⟩ := f
  simp only [sizeField] at h
  simp [travFieldF, travOptF_id g k hg v (by omega), oeBind]

theorem travFieldsF_id {ε : Type} (g : Term → Option (Except ε Term))
    (k : Nat) (hg : ∀ x, sizeT x ≤ k → g x = some (.ok x)) :
    ∀ fs, sizeFields fs ≤ k → travFieldsF g fs = some (.ok fs) := by
  intro fs
  induction fs with
  | nil => intro _; rfl
  | cons pr rest ih =>
      intro h
      obtain ⟨s, f⟩ := pr
      simp only [sizeFields] at h
      simp [travFieldsF, travFieldF_id g k hg f (by omega), ih (by omega),
        oeBind]

theorem travDynF_id {ε : Type} (g : Term → Option (Except ε Term)) (k : Nat)
    (hg : ∀ x, sizeT x ≤ k → g x = some (.ok x)) :
    ∀ dyn, sizeDyn dyn ≤ k → travDynF g dyn = some (.ok dyn) := by
  intro dyn
  induction dyn with
  | nil => intro _; rfl
  | cons pr rest ih =>
      intro h
      obtain ⟨t, f⟩ := pr
      simp only [sizeDyn] at h
      simp [travDynF, hg t (by omega), travFieldF_id g k hg f (by omega),
        ih (by omega), oeBind]

theorem travCasesF_id {ε : Type} (g : Term → Option (Except ε Term))
    (k : Nat) (hg : ∀ x, sizeT x ≤ k → g x = some (.ok x)) :
    ∀ cs, sizeCases cs ≤ k → travCasesF g cs = some (.ok cs) := by
  intro cs
  induction cs with
  | nil => intro _; rfl
  | cons pr rest ih =>
      intro h
      obtain ⟨s, t⟩ := pr
      simp only [sizeCases] at h
      simp [travCasesF, hg t (by omega), ih (by omega), oeBind]

theorem travChunksF_id {ε : Type} (g : Term → Option (Except ε Term))
    (k : Nat) (hg : ∀ x, sizeT x ≤ k → g x = some (.ok x)) :
    ∀ cs, sizeChunks cs ≤ k → travChunksF g cs = some (.ok cs) := by
  intro cs
  induction cs with
  | nil => intro _; rfl
  | cons c rest ih =>
      intro h
      cases c with
      | literal s =>
          simp only [sizeChunks] at h
          simp [travChunksF, ih (by omega), oeBind]
      | expr t i =>
          simp only [sizeChunks] at h
          simp [travChunksF, hg t (by omega), ih (by omega), oeBind]

theorem mapChildren_id {ε : Type} (g : Term → Option (Except ε Term))
    (k : Nat) (hg : ∀ x, sizeT x ≤ k → g x = some (.ok x)) :
    ∀ t, sizeT t ≤ k + 1 → mapChildren g t = some (.ok t) := by
  intro t h
  cases t with
  | null => rfl
  | bool b => rfl
  | num n => rfl
  | str s => rfl
  | strChunks cs =>
      simp only [sizeT] at h
      simp [mapChildren, travChunksF_id g k hg cs (by omega), oeBind]
  | fun_ id b =>
      simp only [sizeT] at h
      simp [mapChildren, hg b (by omega), oeBind]
  | funPattern a p b =>
      simp only [sizeT] at h
      simp [mapChildren, hg b (by omega), oeBind]
  | lbl l => rfl
  | let_ id t1 t2 at1 =>
      simp only [sizeT] at h
      simp [mapChildren, hg t1 (by omega), hg t2 (by omega), oeBind]
  | letPattern a p t1 t2 =>
      simp only [sizeT] at h
      simp [mapChildren, hg t1 (by omega), hg t2 (by omega), oeBind]
  | app t1 t2 =>
      simp only [sizeT] at h
      simp [mapChildren, hg t1 (by omega), hg t2 (by omega), oeBind]
  | var id => rfl
  | enum tag => rfl
  | record fs =>
      simp only [sizeT] at h
      simp [mapChildren, travFieldsF_id g k hg fs (by omega), oeBind]
  | recRecord fs dyn deps =>
      simp only [sizeT] at h
      simp [mapChildren, travFieldsF_id g k hg fs (by omega),
        travDynF_id g k hg dyn (by omega), oeBind]
  | matchT cs d =>
      simp only [sizeT] at h
      simp [mapChildren, travCasesF_id g k hg cs (by omega),
        travOptF_id g k hg d (by omega), oeBind]
  | array ts at1 =>
      simp only [sizeT] at h
      simp [mapChildren, travListF_id g k hg ts (by omega), oeBind]
  | op1 op t =>
      simp only [sizeT] at h
      simp [mapChildren, hg t (by omega), oeBind]
  | op2 op t1 t2 =>
      simp only [sizeT] at h
      simp [mapChildren, hg t1 (by omega), hg t2 (by omega), oeBind]
  | opN op ts =>
      simp only [sizeT] at h
      simp [mapChildren, travListF_id g k hg ts (by omega), oeBind]
  | sealingKey kk => rfl
  | sealed kk t l =>
      simp only [sizeT] at h
      simp [mapChildren, hg t (by omega), oeBind]
  | annotated an t =>
      simp only [sizeT] at h
      simp [mapChildren, hg t (by omega), oeBind]
  | import_ p => rfl
  | resolvedImport f => rfl
  | type_ ty => rfl
  | parseError e => rfl
  | runtimeError e => rfl
  | closure idx => rfl

theorem traverseF_id (order : TraverseOrder) :
    ∀ (n : Nat) (t : Term), sizeT t ≤ n →
      traverseF idTraversal order n t = some (.ok t) := by
  intro n
  induction n with
  | zero =>
      intro t h
      exact absurd h (by have := sizeT_pos t; omega)
  | succ n ih =>
      intro t h
      have hmap : mapChildren (traverseF idTraversal order n) t =
          some (.ok t) :=
        mapChildren_id (traverseF idTraversal order n) n
          (fun x hx => ih x hx) t h
      cases order with
      | topDown => simp [traverseF, idTraversal, hmap]
      | bottomUp => simp [traverseF, idTraversal, hmap]

theorem beqList_refl (k : Nat)
    (hg : ∀ x, sizeT x ≤ k → noClos x = true → beqTerm x x = true) :
    ∀ l, sizeList l ≤ k → noClosList l = true → beqList l l = true := by
  intro l
  induction l with
  | nil => intro _ _; simp [beqList]
  | cons t rest ih =>
      intro h hnc
      simp only [sizeList] at h
      simp only [noClosList, Bool.and_eq_true] at hnc
      simp [beqList, hg t (by omega) hnc.1, ih (by omega) hnc.2]

theorem beqOpt_refl (k : Nat)
    (hg : ∀ x, sizeT x ≤ k → noClos x = true → beqTerm x x = true) :
    ∀ o, sizeOpt o ≤ k → noClosOpt o = true → beqOpt o o = true := by
  intro o h hnc
  cases o with
  | none => simp [beqOpt]
  | some t =>
      simp only [sizeOpt] at h
      simp only [noClosOpt] at hnc
      simp [beqOpt, hg t (by omega) hnc]

theorem beqField_refl (k : Nat)
    (hg : ∀ x, sizeT x ≤ k → noClos x = true → beqTerm x x = true) :
    ∀ f, sizeField f ≤ k → noClosField f = true → beqField f f = true := by
  intro f h hnc
  obtain ⟨v⟩ := f
  simp only [sizeField] at h
  simp only [noClosField] at hnc
  simp [beqField, beqOpt_refl k hg v (by omega) hnc]

theorem beqFields_refl (k : Nat)
    (hg : ∀ x, sizeT x ≤ k → noClos x = true → beqTerm x x = true) :
    ∀ fs, sizeFields fs ≤ k → noClosFields fs = true →
      beqFields fs fs = true := by
  intro fs
  induction fs with
  | nil => intro _ _; simp [beqFields]
  | cons pr rest ih =>
      intro h hnc
      obtain ⟨s, f⟩ := pr
      simp only [sizeFields] at h
      simp only [noClosFields, Bool.and_eq_true] at hnc
      simp [beqFields, beqField_refl k hg f (by omega) hnc.1,
        ih (by omega) hnc.2]

theorem beqDyn_refl (k : Nat)
    (hg : ∀ x, sizeT x ≤ k → noClos x = true → beqTerm x x = true) :
    ∀ dyn, sizeDyn dyn ≤ k → noClosDyn dyn = true →
      beqDyn dyn dyn = true := by
  intro dyn
  induction dyn with
  | nil => intro _ _; simp [beqDyn]
  | cons pr rest ih =>
      intro h hnc
      obtain ⟨t, f⟩ := pr
      simp only [sizeDyn] at h
      simp only [noClosDyn, Bool.and_eq_true] at hnc
      simp [beqDyn, hg t (by omega) hnc.1.1, beqField_refl k hg f (by omega)
        hnc.1.2, ih (by omega) hnc.2]

theorem beqCases_refl (k : Nat)
    (hg : ∀ x, sizeT x ≤ k → noClos x = true → beqTerm x x = true) :
    ∀ cs, sizeCases cs ≤ k → noClosCases cs = true →
      beqCases cs cs = true := by
  intro cs
  induction cs with
  | nil => intro _ _; simp [beqCases]
  | cons pr rest ih =>
      intro h hnc
      obtain ⟨s, t⟩ := pr
      simp only [sizeCases] at h
      simp only [noClosCases, Bool.and_eq_true] at hnc
      simp [beqCases, hg t (by omega) hnc.1, ih (by omega) hnc.2]

theorem beqChunks_refl (k : Nat)
    (hg : ∀ x, sizeT x ≤ k → noClos x = true → beqTerm x x = true) :
    ∀ cs, sizeChunks cs ≤ k → noClosChunks cs = true →
      beqChunks cs cs = true := by
  intro cs
  induction cs with
  | nil => intro _ _; simp [beqChunks]
  | cons c rest ih =>
      intro h hnc
      cases c with
      | literal s =>
          simp only [sizeChunks] at h
          simp only [noClosChunks] at hnc
          simp [beqChunks, ih (by omega) hnc]
      | expr t i =>
          simp only [sizeChunks] at h
          simp only [noClosChunks, Bool.and_eq_true] at hnc
          simp [beqChunks, hg t (by omega) hnc.1, ih (by omega) hnc.2]

theorem beqTerm_refl : ∀ (n : Nat) (t : Term), sizeT t ≤ n →
    noClos t = true → beqTerm t t = true := by
  intro n
  induction n with
  | zero =>
      intro t h
      exact absurd h (by have := sizeT_pos t; omega)
  | succ n ih =>
      intro t h hnc
      cases t with
      | null => simp [beqTerm]
      | bool b => simp [beqTerm]
      | num nn => simp [beqTerm]
      | str s => simp [beqTerm]
      | strChunks cs =>
          simp only [sizeT] at h
          simp only [noClos] at hnc
          simp [beqTerm, beqChunks_refl n ih cs (by omega) hnc]
      | fun_ id b =>
          simp only [sizeT] at h
          simp only [noClos] at hnc
          simp [beqTerm, ih b (by omega) hnc]
      | funPattern a p b =>
          simp only [sizeT] at h
          simp only [noClos] at hnc
          simp [beqTerm, ih b (by omega) hnc]
      | lbl l => simp [beqTerm]
      | let_ id t1 t2 at1 =>
          simp only [sizeT] at h
          simp only [noClos, Bool.and_eq_true] at hnc
          simp [beqTerm, ih t1 (by omega) hnc.1, ih t2 (by omega) hnc.2]
      | letPattern a p t1 t2 =>
          simp only [sizeT] at h
          simp only [noClos, Bool.and_eq_true] at hnc
          simp [beqTerm, ih t1 (by omega) hnc.1, ih t2 (by omega) hnc.2]
      | app t1 t2 =>
          simp only [sizeT] at h
          simp only [noClos, Bool.and_eq_true] at hnc
          simp [beqTerm, ih t1 (by omega) hnc.1, ih t2 (by omega) hnc.2]
      | var id => simp [beqTerm]
      | enum tag => simp [beqTerm]
      | record fs =>
          simp only [sizeT] at h
          simp only [noClos] at hnc
          simp [beqTerm, beqFields_refl n ih fs (by omega) hnc]
      | recRecord fs dyn deps =>
          simp only [sizeT] at h
          simp only [noClos, Bool.and_eq_true] at hnc
          simp [beqTerm, beqFields_refl n ih fs (by omega) hnc.1,
            beqDyn_refl n ih dyn (by omega) hnc.2]
      | matchT cs d =>
          simp only [sizeT] at h
          simp only [noClos, Bool.and_eq_true] at hnc
          simp [beqTerm, beqCases_refl n ih cs (by omega) hnc.1,
            beqOpt_refl n ih d (by omega) hnc.2]
      | array ts at1 =>
          simp only [sizeT] at h
          simp only [noClos] at hnc
          simp [beqTerm, beqList_refl n ih ts (by omega) hnc]
      | op1 op t =>
          simp only [sizeT] at h
          simp only [noClos] at hnc
          simp [beqTerm, ih t (by omega) hnc]
      | op2 op t1 t2 =>
          simp only [sizeT] at h
          simp only [noClos, Bool.and_eq_true] at hnc
          simp [beqTerm, ih t1 (by omega) hnc.1, ih t2 (by omega) hnc.2]
      | opN op ts =>
          simp only [sizeT] at h
          simp only [noClos] at hnc
          simp [beqTerm, beqList_refl n ih ts (by omega) hnc]
      | sealingKey kk => simp [beqTerm]
      | sealed kk t l =>
          simp only [sizeT] at h
          simp only [noClos] at hnc
          simp [beqTerm, ih t (by omega) hnc]
      | annotated an t =>
          simp only [sizeT] at h
          simp only [noClos] at hnc
          simp [beqTerm, ih t (by omega) hnc]
      | import_ p => simp [beqTerm]
      | resolvedImport f => simp [beqTerm]
      | type_ ty => simp [beqTerm]
      | parseError e => simp [beqTerm]
      | runtimeError e => simp [beqTerm]
      | closure idx => simp [noClos] at hnc

/-- C6 counterexample: a root consisting of a single Closure node. The
identity traversal returns the node itself, yet the PartialEq instance makes
a Closure compare unequal to itself, so the traversal result is not
structurally equal to the root and the claim fails on this input. -/
theorem traverse_identity_closure_counterexample :
    traverseF idTraversal .topDown 1 (.closure 0) =
        some (.ok (.closure 0)) ∧
      beqTerm (.closure 0) (.closure 0) = false := by
  constructor
  · rfl
  · simp [beqTerm]

/-- C6 amended: for every root and order, the identity traversal (with fuel
the size of the root, which suffices) returns the root itself, and the
result is structurally equal to the root by the PartialEq instance whenever
the root contains no Closure node. On roots containing a Closure the
traversal still returns the root, but structural equality fails because
Closure compares unequal to itself. -/
theorem traverse_identity (t : Term) (order : TraverseOrder)
    (h : noClos t = true) :
    traverseF idTraversal order (sizeT t) t = some (.ok t) ∧
      beqTerm t t = true :=
  ⟨traverseF_id order (sizeT t) t (le_refl _),
    beqTerm_refl (sizeT t) t (le_refl _) h⟩

/-- C6 amended witness: the identity traversal at a concrete closure-free
application node, bottom-up. -/
theorem traverse_identity_witness :
    traverseF idTraversal .bottomUp (sizeT (.app (.var "x") .null))
        (.app (.var "x") .null) = some (.ok (.app (.var "x") .null)) ∧
      beqTerm (.app (.var "x") .null) (.app (.var "x") .null) = true :=
  traverse_identity (.app (.var "x") .null) .bottomUp (by simp [noClos])

/-! ## Patterns and their compilation (core/src/term/pattern/compile.rs)

The pattern AST itself lives in core/src/term/pattern/mod.rs, which is not
among the sources; it is modelled from the spec below, matching the variants
the typechecker (core/src/typecheck/pattern.rs) and the compiler
(core/src/term/pattern/compile.rs) pattern-match on. -/

/-- Modelled from the spec: the payload of a constant pattern
(ConstantPatternData: Bool, Number, String or Null). -/
inductive ConstantPatternData where
  | bool (b : Bool)
  | number (n : ℚ)
  | str (s : String)
  | null
deriving DecidableEq, Repr

/-- Modelled from the spec: a constant pattern wrapping its data. -/
structure ConstantPattern where
  data : ConstantPatternData
deriving DecidableEq, Repr

/-- Modelled from the spec: the tail of a record pattern: closed, open, or
capturing the rest under an identifier. -/
inductive RecordPatternTail where
  | empty
  | open_
  | capture (id : String)
deriving DecidableEq, Repr

mutual

/-- Modelled from the spec: a pattern with optional alias. -/
inductive Pattern where
  | mk (data : PatternData) (alias_ : Option String)

/-- Modelled from the spec: the pattern variants Wildcard, Any, Record,
Enum, Constant. -/
inductive PatternData where
  | wildcard
  | any (id : String)
  | record (pat : RecordPattern)
  | enum (pat : EnumPattern)
  | constant (pat : ConstantPattern)

/-- Modelled from the spec: a record pattern: field patterns and a tail. -/
inductive RecordPattern where
  | mk (patterns : List FieldPattern) (tail : RecordPatternTail)

/-- Modelled from the spec: a field pattern: matched field name and nested
pattern (the annotation is irrelevant to compilation and omitted). -/
inductive FieldPattern where
  | mk (matched_id : String) (pattern : Pattern)

/-- Modelled from the spec: an enum pattern: tag and optional payload
pattern. -/
inductive EnumPattern where
  | mk (tag : String) (pattern : Option Pattern)

end

/-- LocIdent::fresh, modelled with an explicit counter: the sigil cannot be
produced by the parser. -/
def freshName (n : Nat) : String := "%" ++ toString n

/-- make::let_in: a non-recursive let with default attributes. -/
def make_let_in (id : String) (t1 t2 : Term) : Term :=
  .let_ id t1 t2 ⟨.normal, false⟩

/-- make::if_then_else: the Ite unary operator applied to both branches. -/
def make_if_then_else (cond t e : Term) : Term :=
  .app (.app (.op1 .ite cond) t) e

/-- Embedding of record_insert from compile.rs: the standard record-insert
primop with default metadata, considering all fields. -/
def record_insert : BinaryOp := .dynExtend .withValue .considerAllFields

/-- Embedding of insert_binding from compile.rs. -/
def insert_binding (id value_id bindings_id : String) : Term :=
  .app (.op2 record_insert (.str id) (.var bindings_id)) (.var value_id)

/-- Embedding of remove_from_rest from compile.rs. -/
def remove_from_rest (rest_field field bindings_id : String) : Term :=
  let rest := Term.op1 (.staticAccess rest_field) (.var bindings_id)
  let rest_shrinked :=
    Term.op2 (.dynRemove .considerAllFields) (.str field) rest
  let bindings_shrinked :=
    Term.op2 (.dynRemove .considerAllFields) (.str rest_field)
      (.var bindings_id)
  .app (.op2 record_insert (.str rest_field) bindings_shrinked) rest_shrinked

mutual

/-- Embedding of CompilePart for Pattern: compile the pattern data and, when
an alias is present, wrap the continuation in a let inserting the alias
binding. The fresh-name counter is threaded explicitly; none models a panic
(an unhandled case) in the source. -/
def compilePartPattern : Pattern → String → String → Nat →
    Option (Term × Nat)
  | .mk data al, value_id, bindings_id, ctr =>
      match compilePartData data value_id bindings_id ctr with
      | none => none
      | some (continuation, ctr1) =>
          match al with
          | some alias_ =>
              some (make_let_in bindings_id
                (insert_binding alias_ value_id bindings_id) continuation,
                ctr1)
          | none => some (continuation, ctr1)

/-- Embedding of CompilePart for PatternData, compile.rs lines 141-152. The
Rust match has arms only for Any, Record and Enum: a Wildcard or Constant
pattern falls through no arm, modelled as none. -/
def compilePartData : PatternData → String → String → Nat →
    Option (Term × Nat)
  | .any id, value_id, bindings_id, ctr =>
      some (insert_binding id value_id bindings_id, ctr)
  | .record pat, value_id, bindings_id, ctr =>
      compilePartRecord pat value_id bindings_id ctr
  | .enum pat, value_id, bindings_id, ctr =>
      compilePartEnum pat value_id bindings_id ctr
  | .wildcard, _, _, _ => none
  | .constant _, _, _, _ => none

/-- Embedding of CompilePart for RecordPattern. -/
def compilePartRecord : RecordPattern → String → String → Nat →
    Option (Term × Nat)
  | .mk patterns tail, value_id, bindings_id, ctr =>
      let rest_field := freshName ctr
      let init_bindings : Term :=
        .app (.op2 record_insert (.str rest_field) (.var bindings_id))
          (.var value_id)
      match compileFieldsFold patterns rest_field value_id init_bindings
          (ctr + 1) with
      | none => none
      | some (fold_block, ctr2) =>
          let is_record : Term :=
            .op2 .eq (.op1 .typeof (.var value_id)) (.enum "Record")
          let final_bindings_id := freshName ctr2
          let bindings_without_rest : Term :=
            .op2 (.dynRemove .considerAllFields) (.str rest_field)
              (.var final_bindings_id)
          let tail_block :=
            match tail with
            | .empty =>
                make_if_then_else
                  (.app
                    (.op1 .boolOr
                      (.op2 .eq (.var final_bindings_id) .null))
                    (.op1 .boolNot
                      (.op2 .eq
                        (.op1 (.staticAccess rest_field)
                          (.var final_bindings_id))
                        (.record []))))
                  .null bindings_without_rest
            | .open_ => bindings_without_rest
            | .capture rest =>
                make_if_then_else
                  (.op2 .eq (.var final_bindings_id) .null) .null
                  (.op2 (.dynRemove .considerAllFields) (.str rest_field)
                    (.app
                      (.op2 record_insert (.str rest)
                        (.var final_bindings_id))
                      (.op1 (.staticAccess rest_field)
                        (.var final_bindings_id))))
          some (make_if_then_else is_record
            (make_let_in final_bindings_id fold_block tail_block) .null,
            ctr2 + 1)

/-- The fold over field patterns inside RecordPattern compilation: one step
per field, accumulating the continuation, two fresh locals per step. -/
def compileFieldsFold : List FieldPattern → String → String → Term → Nat →
    Option (Term × Nat)
  | [], _, _, continuation, ctr => some (continuation, ctr)
  | .mk field pat :: rest, rest_field, value_id, continuation, ctr =>
      let local_bindings_id := freshName ctr
      let local_value_id := freshName (ctr + 1)
      match compilePartPattern pat local_value_id local_bindings_id
          (ctr + 2) with
      | none => none
      | some (inner_compiled, ctr2) =>
          let updated_bindings_let :=
            make_let_in local_bindings_id
              (remove_from_rest rest_field field local_bindings_id)
              inner_compiled
          let inner_else_block :=
            make_let_in local_value_id
              (.op1 (.staticAccess field)
                (.op1 (.staticAccess rest_field) (.var local_bindings_id)))
              updated_bindings_let
          let inner_if :=
            make_if_then_else
              (.op2 .eq (.var local_bindings_id) .null) .null
              inner_else_block
          let binding_cont_let :=
            make_let_in local_bindings_id continuation inner_if
          let has_field : Term :=
            .op2 (.fieldIsDefined .considerAllFields) (.str field)
              (.var value_id)
          compileFieldsFold rest rest_field value_id
            (make_if_then_else has_field binding_cont_let .null) ctr2

/-- Embedding of CompilePart for EnumPattern. -/
def compilePartEnum : EnumPattern → String → String → Nat →
    Option (Term × Nat)
  | .mk tag pat, value_id, bindings_id, ctr =>
      let tag_matches : Term :=
        .op2 .eq (.op1 .enumGetTag (.var value_id)) (.enum tag)
      match pat with
      | some p =>
          match compilePartPattern p value_id bindings_id ctr with
          | none => none
          | some (inner, ctr1) =>
              let if_condition :=
                Term.app (.op1 .boolAnd (.op1 .enumIsVariant (.var value_id)))
                  tag_matches
              some (make_if_then_else if_condition
                (make_let_in value_id
                  (.op1 .enumUnwrapVariant (.var value_id)) inner) .null,
                ctr1)
      | none =>
          let is_enum : Term :=
            .op2 .eq (.op1 .typeof (.var value_id)) (.enum "Enum")
          let is_enum_tag : Term :=
            .op1 .boolNot (.op1 .enumIsVariant (.var value_id))
          let if_condition :=
            Term.app (.op1 .boolAnd is_enum)
              (.app (.op1 .boolAnd is_enum_tag) tag_matches)
          some (make_if_then_else if_condition (.var bindings_id) .null,
            ctr)

end

/-- C5: compilation of a constant pattern is undefined: the CompilePart
implementation for PatternData (compile.rs lines 141-152) has no arm for
Constant (nor Wildcard), although the typechecker in the same crate handles
PatternData::Constant, so the Rust match is not exhaustive and a constant
pattern cannot be compiled, contradicting the spec sentence that constant
patterns compare by equality. In contrast, an Any pattern does compile, to
the bindings-insertion expression. -/
theorem constant_pattern_compile_undefined :
    (∀ (c : ConstantPattern) (v b : String) (ctr : Nat),
      compilePartData (.constant c) v b ctr = none) ∧
    (∀ (id v b : String) (ctr : Nat),
      compilePartData (.any id) v b ctr =
        some (insert_binding id v b, ctr)) := by
  refine ⟨fun c v b ctr => ?_, fun id v b ctr => ?_⟩
  · simp [compilePartData]
  · simp [compilePartData]

/-! ## The source cache (core/src/cache_new.rs) -/

/-- Modelled from the spec: the logical path of a source (core/src/source.rs
is not among the sources): a filesystem path, stdin, a named generated
source, or a counter-keyed evaluation-generated source. -/
inductive SourcePath where
  | path (p : NPath)
  | std
  | generated (name : String)
  | generatedByEvaluation (n : Nat)
deriving DecidableEq, Repr

/-- Modelled from the spec: the contents of a source (core/src/source.rs);
an in-memory snippet or a file, carrying the source text. -/
inductive Source where
  | memory (source : String)
  | filesystem (p : NPath) (source : String)
deriving DecidableEq, Repr

/-- The per-entry pipeline state (cache_new.rs, SourceState); states past
parsing carry the term, and the typechecking states also carry the wildcard
substitution table (opaque tokens here). -/
inductive SourceState where
  | added
  | parsed (term : Term)
  | importsResolving (term : Term)
  | importsResolved (term : Term)
  | typechecking (term : Term) (wildcards : List Nat)
  | typechecked (term : Term) (wildcards : List Nat)
  | transforming (term : Term)
  | transformed (term : Term)

/-- A cache entry: pipeline state, origin path and file-store handle
(cache_new.rs, CacheEntry). -/
structure CacheEntry where
  state : SourceState
  path : SourcePath
  source : Nat

/-- The source cache (cache_new.rs, SourceCache). The codespan Files store
is a list indexed by FileId, by_path is an association list, CacheKey is the
one-based index into entries (NonZeroUsize in the source), and parse errors
are opaque tokens kept in a side list. -/
structure SourceCache where
  sources : List Source
  by_path : List (SourcePath × Nat)
  entries : List CacheEntry
  parse_errors : List (Nat × Nat)
  next_generated : Nat

/-- SourceCache::new. -/
def SourceCache.new : SourceCache := ⟨[], [], [], [], 0⟩

/-- SourceCache::find. -/
def find (c : SourceCache) (path : SourcePath) : Option Nat :=
  lookupA c.by_path path

/-- SourceCache::insert: on a known path, update the file store in place and
reset the entry state to Added, returning the existing key; on a new path,
add the source to the file store, push a new Added entry and record the new
one-based key under the path. Option models the panics the source contracts
away ("CacheKeys can only be constructed by us"). -/
def insert (c : SourceCache) (path : SourcePath) (source : Source) :
    Option (Nat × SourceCache) :=
  match lookupA c.by_path path with
  | some cache_key =>
      match c.entries.get? (cache_key - 1) with
      | none => none
      | some entry =>
          if entry.source < c.sources.length then
            some (cache_key,
              { c with
                  sources := c.sources.set entry.source source,
                  entries := c.entries.set (cache_key - 1)
                    { entry with state := .added } })
          else none
  | none =>
      let file_id := c.sources.length
      let entries1 := c.entries ++ [⟨.added, path, file_id⟩]
      let cache_key := entries1.length
      some (cache_key,
        { c with
            sources := c.sources ++ [source],
            entries := entries1,
            by_path := c.by_path ++ [(path, cache_key)] })

/-- SourceCache::insert_generated: wrap the source under a fresh
GeneratedByEvaluation path with the monotonically increasing counter. -/
def insert_generated (c : SourceCache) (source : Source) :
    Option (Nat × SourceCache) :=
  insert { c with next_generated := c.next_generated + 1 }
    (.generatedByEvaluation c.next_generated) source

/-- SourceCache::get. -/
def getEntry (c : SourceCache) (key : Nat) : Option CacheEntry :=
  c.entries.get? (key - 1)

/-- The state slot returned by SourceCache::get_mut. -/
def stateOf (c : SourceCache) (key : Nat) : Option SourceState :=
  (getEntry c key).map (fun e => e.state)

/-- SourceCache::source: the currently stored source for a key. -/
def sourceOf (c : SourceCache) (key : Nat) : Option Source :=
  (getEntry c key).bind (fun e => c.sources.get? e.source)

/-- A cache is well formed when every key in the path index points at an
existing entry whose file-store handle is live. Every cache the API builds
satisfies this; it discharges the panics modelled by Option. -/
def Wf (c : SourceCache) : Prop :=
  ∀ p k, lookupA c.by_path p = some k →
    ∃ e, c.entries.get? (k - 1) = some e ∧ e.source < c.sources.length

theorem lookupA_append_self {κ ν : Type} [DecidableEq κ]
    (l : List (κ × ν)) (p : κ) (v : ν) (h : lookupA l p = none) :
    lookupA (l ++ [(p, v)]) p = some v := by
  induction l with
  | nil => simp [lookupA]
  | cons pr rest ih =>
      obtain ⟨k0, v0⟩ := pr
      by_cases h0 : k0 = p
      · subst h0
        simp [lookupA] at h
      · simp only [lookupA, if_neg h0] at h
        simp only [List.cons_append, lookupA, if_neg h0]
        exact ih h

theorem get?_set_self {α : Type} (l : List α) (n : Nat) (a : α)
    (h : n < l.length) : (l.set n a).get? n = some a := by
  simp [List.getElem?_set_self', List.getElem?_eq_getElem h]

theorem get?_concat_self {α : Type} (l : List α) (a : α) :
    (l ++ [a]).get? l.length = some a := by
  simp [List.getElem?_concat_length]

/-- C1: inserting twice under the same path returns the same key both
times, leaves the entry state at Added, stores the second source, and find
returns the key. -/
theorem insert_insert_same_key (c : SourceCache) (P : SourcePath)
    (S1 S2 : Source) (hwf : Wf c) :
    ∃ k c1 c2,
      insert c P S1 = some (k, c1) ∧
      insert c1 P S2 = some (k, c2) ∧
      stateOf c2 k = some .added ∧
      sourceOf c2 k = some S2 ∧
      find c2 P = some k := by
  cases h : lookupA c.by_path P with
  | some k =>
      obtain ⟨e, he, hlt⟩ := hwf P k h
      have hk1 : k - 1 < c.entries.length := by
        rcases List.getElem?_eq_some.mp (by simpa using he) with ⟨hl, _⟩
        exact hl
      have he1 : (c.entries.set (k - 1) { e with state := .added }).get?
          (k - 1) = some { e with state := .added } :=
        get?_set_self _ _ _ hk1
      have hk1s : k - 1 < (c.entries.set (k - 1)
          { e with state := .added }).length := by
        simpa using hk1
      refine ⟨k,
        { c with
            sources := c.sources.set e.source S1,
            entries := c.entries.set (k - 1) { e with state := .added } },
        { c with
            sources := (c.sources.set e.source S1).set e.source S2,
            entries := (c.entries.set (k - 1)
              { e with state := .added }).set (k - 1)
                { e with state := .added } },
        ?_, ?_, ?_, ?_, ?_⟩
      · have he' : c.entries[k - 1]? = some e := by simpa using he
        simp [insert, h, he', hlt]
      · simp only [insert, h, he1]
        rw [if_pos (by simpa using hlt)]
      · simp only [stateOf, getEntry]
        rw [get?_set_self _ _ _ hk1s]
        rfl
      · simp only [sourceOf, getEntry]
        rw [get?_set_self _ _ _ hk1s]
        simp only [Option.some_bind]
        exact get?_set_self _ _ _ (by simpa using hlt)
      · exact h
  | none =>
      have hby : lookupA (c.by_path ++ [(P, c.entries.length + 1)]) P =
          some (c.entries.length + 1) := lookupA_append_self _ _ _ h
      have hget : (c.entries ++
          [(⟨.added, P, c.sources.length⟩ : CacheEntry)]).get?
            (c.entries.length + 1 - 1) =
          some ⟨.added, P, c.sources.length⟩ := by
        simp [get?_concat_self]
      have hlen : c.entries.length + 1 - 1 <
          (c.entries ++ [(⟨.added, P, c.sources.length⟩ : CacheEntry)]).length := by
        simp
      refine ⟨c.entries.length + 1,
        { c with
            sources := c.sources ++ [S1],
            entries := c.entries ++ [⟨.added, P, c.sources.length⟩],
            by_path := c.by_path ++ [(P, c.entries.length + 1)] },
        { c with
            sources := (c.sources ++ [S1]).set c.sources.length S2,
            entries := (c.entries ++
              [(⟨.added, P, c.sources.length⟩ : CacheEntry)]).set
                (c.entries.length + 1 - 1) ⟨.added, P, c.sources.length⟩,
            by_path := c.by_path ++ [(P, c.entries.length + 1)] },
        ?_, ?_, ?_, ?_, ?_⟩
      · simp [insert, h]
      · simp only [insert, hby, hget]
        rw [if_pos (by simp)]
      · simp only [stateOf, getEntry]
        rw [get?_set_self _ _ _ (by simp)]
        rfl
      · simp only [sourceOf, getEntry]
        rw [get?_set_self _ _ _ (by simp)]
        simp only [Option.some_bind]
        exact get?_set_self _ _ _ (by simp)
      · simp only [find]
        exact lookupA_append_self _ _ _ h

/-- C1 witness: the double insert on the empty cache at the stdin path. -/
theorem insert_insert_same_key_witness :
    ∃ k c1 c2,
      insert SourceCache.new .std (.memory "a") = some (k, c1) ∧
      insert c1 .std (.memory "b") = some (k, c2) ∧
      stateOf c2 k = some .added ∧
      sourceOf c2 k = some (.memory "b") ∧
      find c2 .std = some k :=
  insert_insert_same_key SourceCache.new .std (.memory "a") (.memory "b")
    (fun p k h => absurd h (by simp [SourceCache.new, lookupA]))

/-! ## Closing enum row tails (core/src/typecheck/pattern.rs) -/

/-- An element of a pattern path (typecheck/pattern.rs,
PatternPathElem). -/
inductive PatternPathElem where
  | field (id : String)
  | variant
deriving DecidableEq, Repr

/-- A pattern path. -/
abbrev PatternPath := List PatternPathElem

mutual

/-- A unification enum-row type: a free unification variable or a concrete
row (typecheck's UnifEnumRows, with row contents reduced to tags). -/
inductive UERows where
  | unifVar (id : Nat)
  | concrete (rows : ERows)

/-- Concrete enum rows: empty, a rigid type variable or constant at the
tail, or an extension by one tag. -/
inductive ERows where
  | empty
  | tailVar (id : Nat)
  | tailConstant (id : Nat)
  | extend (tag : String) (tail : UERows)

end

/-- The unification table restricted to enum rows: assignments of
unification variables. -/
abbrev Table := List (Nat × UERows)

/-- Look up a variable in the table. -/
def lookupT : Table → Nat → Option UERows
  | [], _ => none
  | (i, r) :: rest, id => if i = id then some r else lookupT rest id

/-- Modelled from the spec: UnifTable::assign_erows (the unification table
lives outside the covered sources): record an assignment for a free
variable. -/
def assign_erows (st : Table) (id : Nat) (v : UERows) : Table :=
  (id, v) :: st

/-- Modelled from the spec: following a chain of variable assignments, with
fuel; the table of a typecheck run is acyclic so the fuel used by into_root
always suffices. -/
def chase (st : Table) : Nat → UERows → UERows
  | 0, t => t
  | n + 1, t =>
      match t with
      | .concrete r => .concrete r
      | .unifVar id =>
          match lookupT st id with
          | none => .unifVar id
          | some r => chase st n r

/-- Modelled from the spec: UnifEnumRows::into_root, the final tail of a
chain of unification-variable indirections. -/
def into_root (st : Table) (t : UERows) : UERows :=
  chase st (st.length + 1) t

/-- The find_map over the row iterator inside close_enum: walk the extension
chain and return the tail unification variable if the chain ends in one
(TailVar and TailConstant end the search, as does an empty tail). -/
def find_tail_uvar : ERows → Option Nat
  | .empty => none
  | .tailVar _ => none
  | .tailConstant _ => none
  | .extend _ tail =>
      match tail with
      | .unifVar id => some id
      | .concrete rows => find_tail_uvar rows

/-- Embedding of close_enum from typecheck/pattern.rs, with fuel for the
recursion through already-assigned tails: find the root of the tail; assign
empty rows if it is a free unification variable; otherwise follow the
concrete row chain to its tail unification variable, if any, and close
that. -/
def close_enum_go (st : Table) : Nat → UERows → Table
  | 0, _ => st
  | n + 1, t =>
      match into_root st t with
      | .unifVar id => assign_erows st id (.concrete .empty)
      | .concrete rows =>
          match find_tail_uvar rows with
          | some id => close_enum_go st n (.unifVar id)
          | none => st

/-- close_enum with the fuel its callers need (one step per table entry
plus one). -/
def close_enum (st : Table) (tail : UERows) : Table :=
  close_enum_go st (st.length + 1) tail

/-- Embedding of close_enums from typecheck/pattern.rs: close every tail
whose path is not among the wildcard occurrences, in order, threading the
unification state. -/
def close_enums (tails : List (PatternPath × UERows))
    (wildcard_occurrences : List PatternPath) (st : Table) : Table :=
  tails.foldl
    (fun acc pt =>
      if pt.1 ∈ wildcard_occurrences then acc else close_enum acc pt.2) st

/-- Embedding of close_all_enums: close_enums with no wildcard paths. -/
def close_all_enums (tails : List (PatternPath × UERows)) (st : Table) :
    Table :=
  close_enums tails [] st

/-- The variable at the head of a row, if any. -/
def rootOf : UERows → Option Nat
  | .unifVar id => some id
  | .concrete _ => none

/-- The root of a tail when it is a free unification variable (when the
tail is open in the given state). -/
def rootVar (st : Table) (t : UERows) : Option Nat :=
  (rootOf (into_root st t)).bind
    (fun id => if (lookupT st id).isNone then some id else none)

theorem chase_concrete (st : Table) (r : ERows) :
    ∀ m, chase st m (.concrete r) = .concrete r := by
  intro m
  cases m <;> simp [chase]

theorem chase_unifVar_none (st : Table) (id : Nat)
    (h : lookupT st id = none) :
    ∀ m, chase st m (.unifVar id) = .unifVar id := by
  intro m
  cases m <;> simp [chase, h]

/-- Tables only grow: lookups are preserved. -/
def SubT (st st' : Table) : Prop :=
  ∀ id r, lookupT st id = some r → lookupT st' id = some r

theorem subT_refl (st : Table) : SubT st st := fun _ _ h => h

theorem subT_trans {s1 s2 s3 : Table} (h1 : SubT s1 s2) (h2 : SubT s2 s3) :
    SubT s1 s3 := fun id r h => h2 id r (h1 id r h)

theorem subT_cons (st : Table) (id : Nat) (v : UERows)
    (h : lookupT st id = none) : SubT st ((id, v) :: st) := by
  intro j r hj
  simp only [lookupT]
  by_cases hij : id = j
  · subst hij
    rw [hj] at h
    cases h
  · simp [hij, hj]

theorem lookupT_cons_self (st : Table) (id : Nat) (v : UERows) :
    lookupT ((id, v) :: st) id = some v := by
  simp [lookupT]

theorem lookupT_cons_ne (st : Table) (id j : Nat) (v : UERows)
    (h : id ≠ j) : lookupT ((id, v) :: st) j = lookupT st j := by
  simp [lookupT, h]

theorem chase_sub_none (st st' : Table) (hsub : SubT st st') :
    ∀ n t id, chase st n t = .unifVar id → lookupT st id = none →
      lookupT st' id = none → ∀ m, n ≤ m → chase st' m t = .unifVar id := by
  intro n
  induction n with
  | zero =>
      intro t id hc _ h' m _
      simp only [chase] at hc
      subst hc
      exact chase_unifVar_none st' id h' m
  | succ n ih =>
      intro t id hc hfree h' m hm
      cases t with
      | concrete r =>
          rw [chase_concrete] at hc
          cases hc
      | unifVar j =>
          simp only [chase] at hc
          cases hl : lookupT st j with
          | none =>
              rw [hl] at hc
              simp at hc
              subst hc
              exact chase_unifVar_none st' j h' m
          | some r =>
              rw [hl] at hc
              obtain ⟨m', rfl⟩ : ∃ m', m = m' + 1 :=
                ⟨m - 1, by omega⟩
              have hl' : lookupT st' j = some r := hsub j r hl
              simp only [chase, hl']
              exact ih r id hc hfree h' m' (by omega)

theorem chase_sub_closed (st st' : Table) (hsub : SubT st st') :
    ∀ n t id, chase st n t = .unifVar id → lookupT st id = none →
      lookupT st' id = some (.concrete .empty) → ∀ m, n + 1 ≤ m →
        chase st' m t = .concrete .empty := by
  intro n
  induction n with
  | zero =>
      intro t id hc _ h' m hm
      simp only [chase] at hc
      subst hc
      obtain ⟨m', rfl⟩ : ∃ m', m = m' + 1 := ⟨m - 1, by omega⟩
      simp only [chase, h']
      exact chase_concrete st' _ m'
  | succ n ih =>
      intro t id hc hfree h' m hm
      cases t with
      | concrete r =>
          rw [chase_concrete] at hc
          cases hc
      | unifVar j =>
          simp only [chase] at hc
          cases hl : lookupT st j with
          | none =>
              rw [hl] at hc
              simp at hc
              subst hc
              obtain ⟨m', rfl⟩ : ∃ m', m = m' + 1 := ⟨m - 1, by omega⟩
              simp only [chase, h']
              exact chase_concrete st' _ m'
          | some r =>
              rw [hl] at hc
              obtain ⟨m', rfl⟩ : ∃ m', m = m' + 1 := ⟨m - 1, by omega⟩
              have hl' : lookupT st' j = some r := hsub j r hl
              simp only [chase, hl']
              exact ih r id hc hfree h' m' (by omega)

theorem close_enum_free (st : Table) (t : UERows) (id : Nat)
    (h : into_root st t = .unifVar id) :
    close_enum st t = (id, UERows.concrete .empty) :: st := by
  simp [close_enum, close_enum_go, h, assign_erows]

theorem close_enum_closed (st : Table) (t : UERows)
    (h : into_root st t = .concrete .empty) : close_enum st t = st := by
  simp [close_enum, close_enum_go, h, find_tail_uvar]

theorem rootVar_some {st : Table} {t : UERows} {id : Nat}
    (h : rootVar st t = some id) :
    into_root st t = .unifVar id ∧ lookupT st id = none := by
  cases hroot : into_root st t with
  | unifVar j =>
      rw [rootVar, hroot] at h
      simp only [rootOf, Option.some_bind] at h
      by_cases hfree : (lookupT st j).isNone
      · rw [if_pos hfree] at h
        obtain rfl : j = id := by simpa using h
        exact ⟨rfl, by simpa [Option.isNone_iff_eq_none] using hfree⟩
      · rw [if_neg hfree] at h
        cases h
  | concrete r =>
      rw [rootVar, hroot] at h
      simp [rootOf] at h

/-- The invariant threaded through the close_enums fold: the state only
grows, and every newly assigned variable was free initially, is now bound to
empty rows, and is a root of some non-wildcarded tail (collected in S). -/
def InvT (st0 st : Table) (S : List Nat) : Prop :=
  SubT st0 st ∧ st0.length ≤ st.length ∧
  ∀ id, lookupT st0 id = none →
    lookupT st id = none ∨
    (lookupT st id = some (.concrete .empty) ∧ id ∈ S ∧
      st0.length < st.length)

theorem invT_refl (st0 : Table) (S : List Nat) : InvT st0 st0 S :=
  ⟨subT_refl _, le_refl _, fun _ h => Or.inl h⟩

theorem close_enums_cons (pt : PatternPath × UERows)
    (rest : List (PatternPath × UERows)) (wild : List PatternPath)
    (st : Table) :
    close_enums (pt :: rest) wild st =
      close_enums rest wild
        (if pt.1 ∈ wild then st else close_enum st pt.2) := by
  simp [close_enums, List.foldl_cons]

theorem close_enums_fold (wild : List PatternPath) (S : List Nat) :
    ∀ (tails : List (PatternPath × UERows)) (st0 st : Table),
      InvT st0 st S →
      (∀ pt ∈ tails, ∃ id, rootVar st0 pt.2 = some id ∧
        (pt.1 ∉ wild → id ∈ S)) →
      InvT st0 (close_enums tails wild st) S ∧
      SubT st (close_enums tails wild st) ∧
      (∀ pt ∈ tails, pt.1 ∉ wild → ∀ id, rootVar st0 pt.2 = some id →
        lookupT (close_enums tails wild st) id =
          some (.concrete .empty)) := by
  intro tails
  induction tails with
  | nil =>
      intro st0 st hinv _
      refine ⟨hinv, subT_refl st, ?_⟩
      intro pt hpt
      cases hpt
  | cons pt rest ih =>
      intro st0 st hinv hroots
      obtain ⟨hsub0, hlen0, hnew⟩ := hinv
      obtain ⟨id0, hid0, hmem0⟩ := hroots pt (List.mem_cons_self _ _)
      obtain ⟨hroot0, hfree0⟩ := rootVar_some hid0
      rw [close_enums_cons]
      by_cases hw : pt.1 ∈ wild
      · rw [if_pos hw]
        obtain ⟨hinv1, hsub1, hrest⟩ :=
          ih st0 st ⟨hsub0, hlen0, hnew⟩
            (fun qt hqt => hroots qt (List.mem_cons_of_mem _ hqt))
        refine ⟨hinv1, hsub1, ?_⟩
        intro qt hqt hnw id hid
        rcases List.mem_cons.mp hqt with rfl | hqt1
        · exact absurd hw hnw
        · exact hrest qt hqt1 hnw id hid
      · rw [if_neg hw]
        have hS0 : id0 ∈ S := hmem0 hw
        rcases hnew id0 hfree0 with hcur | ⟨hcur, _, hstrict⟩
        · -- the root is still free: close_enum assigns it to empty rows
          have hroot : into_root st pt.2 = .unifVar id0 := by
            rw [into_root]
            exact chase_sub_none st0 st hsub0 (st0.length + 1) pt.2 id0
              hroot0 hfree0 hcur (st.length + 1) (by omega)
          have hclose : close_enum st pt.2 =
              (id0, UERows.concrete .empty) :: st :=
            close_enum_free st pt.2 id0 hroot
          rw [hclose]
          have hsubnew : SubT st ((id0, UERows.concrete .empty) :: st) :=
            subT_cons st id0 _ hcur
          have hinv1 : InvT st0 ((id0, UERows.concrete .empty) :: st) S := by
            refine ⟨subT_trans hsub0 hsubnew, by simp; omega, ?_⟩
            intro id hid
            by_cases hii : id = id0
            · subst hii
              right
              refine ⟨lookupT_cons_self st id _, hS0, by simp; omega⟩
            · rw [lookupT_cons_ne st id0 id _ (fun h => hii h.symm)]
              rcases hnew id hid with h1 | ⟨h1, h2, h3⟩
              · exact Or.inl h1
              · exact Or.inr ⟨h1, h2, by simp; omega⟩
          obtain ⟨hinv2, hsub2, hrest⟩ :=
            ih st0 ((id0, UERows.concrete .empty) :: st) hinv1
              (fun qt hqt => hroots qt (List.mem_cons_of_mem _ hqt))
          refine ⟨hinv2, subT_trans hsubnew hsub2, ?_⟩
          intro qt hqt hnw id hid
          rcases List.mem_cons.mp hqt with rfl | hqt1
          · obtain rfl : id = id0 := by
              rw [hid0] at hid
              simpa using hid.symm
            exact hsub2 id _ (lookupT_cons_self st id _)
          · exact hrest qt hqt1 hnw id hid
        · -- the root was already assigned by an earlier close: no-op
          have hroot : into_root st pt.2 = .concrete .empty := by
            rw [into_root]
            exact chase_sub_closed st0 st hsub0 (st0.length + 1) pt.2 id0
              hroot0 hfree0 hcur (st.length + 1) (by omega)
          rw [close_enum_closed st pt.2 hroot]
          obtain ⟨hinv1, hsub1, hrest⟩ :=
            ih st0 st ⟨hsub0, hlen0, hnew⟩
              (fun qt hqt => hroots qt (List.mem_cons_of_mem _ hqt))
          refine ⟨hinv1, hsub1, ?_⟩
          intro qt hqt hnw id hid
          rcases List.mem_cons.mp hqt with rfl | hqt1
          · obtain rfl : id = id0 := by
              rw [hid0] at hid
              simpa using hid.symm
            exact hsub1 id _ hcur
          · exact hrest qt hqt1 hnw id hid

/-- The roots of the non-wildcarded tails, used to bound which variables
close_enums may assign. -/
def nonWildRoots (tails : List (PatternPath × UERows))
    (wild : List PatternPath) (st : Table) : List Nat :=
  tails.filterMap (fun qt => if qt.1 ∈ wild then none else rootVar st qt.2)

/-- C3 counterexample: two open tails sharing the same root unification
variable, with the second tail's path wildcarded. Closing the first tail
assigns the shared root to empty rows, so the wildcarded tail does not stay
open: close_enums does not leave every wildcarded tail untouched. -/
theorem close_enums_shared_var_counterexample :
    rootVar [] (.unifVar 0) = some 0 ∧
    into_root
      (close_enums [([], .unifVar 0), ([.variant], .unifVar 0)]
        [[.variant]] [])
      (.unifVar 0) = .concrete .empty := by
  constructor
  · rfl
  · rfl

/-- C3 amended: on any list of open tails (each tail's root is a free
unification variable), close_enums closes exactly the tails whose path is
not in the wildcard set: every such tail's root is assigned empty rows and
the tail resolves to the empty (closed) enum row afterwards. A tail whose
path is wildcarded is skipped, and it remains open provided its root
variable is distinct from the root of every non-wildcarded tail; when it
shares its root with a closed tail it is closed along with it. -/
theorem close_enums_filter (tails : List (PatternPath × UERows))
    (wild : List PatternPath) (st : Table)
    (hopen : ∀ pt ∈ tails, (rootVar st pt.2).isSome = true) :
    (∀ pt ∈ tails, pt.1 ∉ wild → ∀ id, rootVar st pt.2 = some id →
      into_root (close_enums tails wild st) pt.2 = .concrete .empty) ∧
    (∀ pt ∈ tails, pt.1 ∈ wild → ∀ id, rootVar st pt.2 = some id →
      (∀ qt ∈ tails, qt.1 ∉ wild → rootVar st qt.2 ≠ some id) →
      into_root (close_enums tails wild st) pt.2 = .unifVar id ∧
      lookupT (close_enums tails wild st) id = none) := by
  have hroots : ∀ pt ∈ tails, ∃ id, rootVar st pt.2 = some id ∧
      (pt.1 ∉ wild → id ∈ nonWildRoots tails wild st) := by
    intro pt hpt
    obtain ⟨id, hid⟩ := Option.isSome_iff_exists.mp (hopen pt hpt)
    refine ⟨id, hid, fun hnw => ?_⟩
    rw [nonWildRoots, List.mem_filterMap]
    exact ⟨pt, hpt, by simp [hnw, hid]⟩
  obtain ⟨⟨hsub0, hlen0, hnew⟩, hsub, hclosed⟩ :=
    close_enums_fold wild (nonWildRoots tails wild st) tails st st
      (invT_refl st (nonWildRoots tails wild st)) hroots
  constructor
  · intro pt hpt hnw id hid
    obtain ⟨hroot0, hfree0⟩ := rootVar_some hid
    have hfin : lookupT (close_enums tails wild st) id =
        some (.concrete .empty) := hclosed pt hpt hnw id hid
    have hstrict : st.length < (close_enums tails wild st).length := by
      rcases hnew id hfree0 with h1 | ⟨_, _, h3⟩
      · rw [hfin] at h1
        cases h1
      · exact h3
    rw [into_root]
    exact chase_sub_closed st _ hsub0 (st.length + 1) pt.2 id hroot0
      hfree0 hfin _ (by omega)
  · intro pt hpt hw id hid hdistinct
    obtain ⟨hroot0, hfree0⟩ := rootVar_some hid
    have hnotS : id ∉ nonWildRoots tails wild st := by
      intro hmem
      rw [nonWildRoots, List.mem_filterMap] at hmem
      obtain ⟨qt, hqt, hq⟩ := hmem
      by_cases hqw : qt.1 ∈ wild
      · simp [hqw] at hq
      · rw [if_neg hqw] at hq
        exact hdistinct qt hqt hqw hq
    have hfin : lookupT (close_enums tails wild st) id = none := by
      rcases hnew id hfree0 with h1 | ⟨_, h2, _⟩
      · exact h1
      · exact absurd h2 hnotS
    refine ⟨?_, hfin⟩
    rw [into_root]
    exact chase_sub_none st _ hsub0 (st.length + 1) pt.2 id hroot0 hfree0
      hfin _ (by omega)

/-- C3 amended witness: two tails with distinct roots, the second
wildcarded: the first is closed, the second stays open. -/
theorem close_enums_filter_witness :
    into_root
        (close_enums [([], .unifVar 0), ([.variant], .unifVar 1)]
          [[.variant]] [])
        (.unifVar 0) = .concrete .empty ∧
      into_root
        (close_enums [([], .unifVar 0), ([.variant], .unifVar 1)]
          [[.variant]] [])
        (.unifVar 1) = .unifVar 1 := by
  have h := close_enums_filter
    [([], .unifVar 0), ([.variant], .unifVar 1)] [[.variant]] []
    (by
      intro pt hpt
      simp only [List.mem_cons, List.not_mem_nil, or_false] at hpt
      rcases hpt with rfl | rfl
      · rfl
      · rfl)
  refine ⟨?_, ?_⟩
  · exact h.1 ([], .unifVar 0) (by simp) (by simp) 0 rfl
  · exact (h.2 ([.variant], .unifVar 1) (by simp) (by simp) 1 rfl
      (by
        intro qt hqt hnw
        simp only [List.mem_cons, List.not_mem_nil, or_false] at hqt
        rcases hqt with rfl | rfl
        · intro hcontra
          simp [rootVar, into_root, chase, lookupT, rootOf] at hcontra
        · exact absurd (by simp) hnw)).1

end NickelSpec
